import Mathlib

/-!
# Verification of the orchestr database-access core

A shallow embedding, in Lean 4, of the query-compilation / hydration core of
the `orchestr` repository: the Ensemble record collection
(`src/Database/Ensemble/EnsembleCollection.ts`), the Ensemble record builder
(`EnsembleBuilder`: hydration, pagination, chunked iteration, clone), the
database manager (`DatabaseManager`), and — modelled from the specification
where the source file itself is not part of the source tree — the generic
query builder's compilation of SQL text plus ordered bindings.

JavaScript runtime values carried by records and query bindings are embedded
as a tagged union `Value`; JavaScript numbers are embedded as rationals, with
`none : Option ℚ` playing the role of `NaN` where numeric coercion can fail.
-/

/-- A JavaScript runtime value as it appears in row data, model attributes and
query bindings: `undefined`, `null`, booleans, numbers (embedded as rationals)
and strings. -/
inductive Value where
  | undefined : Value
  | null : Value
  | bool : Bool → Value
  | num : ℚ → Value
  | str : String → Value
deriving DecidableEq

/-- A raw result row: an association list from column names to values
(the embedding of a JS `Record<string, any>`). -/
def Row : Type := List (String × Value)

instance : DecidableEq Row := by unfold Row; infer_instance

/-- Look a key up in a row; `none` when the key is absent. -/
def rowGet : Row → String → Option Value
  | [], _ => none
  | (k, v) :: rest, key => if k = key then some v else rowGet rest key

/-- JavaScript truthiness: `undefined`, `null`, `false`, `0` and `""` are
falsy, everything else is truthy. -/
def Value.truthy : Value → Bool
  | .undefined => false
  | .null => false
  | .bool b => b
  | .num q => decide (q ≠ 0)
  | .str s => decide (s ≠ "")

/-- The JS expression `v || d`: `d` when `v` is falsy, otherwise `v` itself. -/
def jsOr (v d : Value) : Value := if v.truthy then v else d

/-- A JS number result: `some q` is an ordinary (rational-embedded) number,
`none` stands for `NaN`. -/
def JsNum : Type := Option ℚ

instance : DecidableEq JsNum := by unfold JsNum; infer_instance

/-- Digit-string parsing used to model JS `Number(string)`: strings of decimal
digits parse to the corresponding natural number, everything else is `NaN`.
(This under-approximates the full JS numeric grammar; it is exact on the digit
strings used in this development.) -/
def strToNumber (s : String) : Option ℚ :=
  (s.toNat?).map (fun n => (n : ℚ))

/-- JS `Number(v)` coercion: `null → 0`, `false → 0`, `true → 1`, numbers are
themselves, strings parse or give `NaN`, `undefined → NaN`. -/
def Value.toNumber : Value → JsNum
  | .undefined => none
  | .null => some 0
  | .bool b => some (if b then 1 else 0)
  | .num q => some q
  | .str s => if s = "" then some 0 else strToNumber s

/-- Addition of JS numbers; `NaN` is absorbing. -/
def jsAdd : JsNum → JsNum → JsNum
  | some a, some b => some (a + b)
  | _, _ => none

/-- Division of JS numbers; division by zero and `NaN` operands give `NaN`
(the development only divides by positive lengths, where this is exact). -/
def jsDiv : JsNum → JsNum → JsNum
  | some a, some b => if b = 0 then none else some (a / b)
  | _, _ => none

/-! ## Model Record (`Ensemble`)

The `Ensemble` model class itself is not among the source files (only its
callers and the `HasAttributes` contract are), so its attribute storage is
modelled from the spec. -/

/-- Modelled from the spec: the Model Record data model of §3 — the `Ensemble`
model class is not among the source files. `{ attributes, original, exists }`;
the table/primary-key metadata is not needed by the claims and is omitted.
The `exists` flag is named `existsF` because `exists` is reserved in Lean. -/
structure Ensemble where
  attributes : Row
  original : Row
  existsF : Bool
deriving DecidableEq

/-- Modelled from the spec: explicit construction (`new ModelClass(attributes)`)
builds a non-existing record with the supplied attributes and an unsynced
baseline (§3: records are created by hydration with `exists = true` or
explicit construction with `exists = false`). -/
def Ensemble.mkNew (attrs : Row) : Ensemble :=
  { attributes := attrs, original := [], existsF := false }

/-- Modelled from the spec: `syncOriginal` — the baseline snapshot is set to
the current attributes (§4.4 "baseline snapshot synced to the just-loaded
attributes"). -/
def Ensemble.syncOriginal (m : Ensemble) : Ensemble :=
  { m with original := m.attributes }

/-- Attribute read (`item[key]`): absent keys read as JS `undefined`. -/
def Ensemble.getAttr (m : Ensemble) (k : String) : Value :=
  (rowGet m.attributes k).getD .undefined

/-- Baseline read of an attribute. -/
def Ensemble.getOriginal (m : Ensemble) (k : String) : Value :=
  (rowGet m.original k).getD .undefined

/-- Modelled from the spec: a record is dirty on a key iff
`attributes[key] !== original[key]` (§3 invariant). -/
def Ensemble.isDirty (m : Ensemble) (k : String) : Bool :=
  decide (m.getAttr k ≠ m.getOriginal k)

/-! ## Record Collection (`EnsembleCollection`) aggregates and sorting

Translated from `src/Database/Ensemble/EnsembleCollection.ts`. The collection
is an array subclass; it is embedded as a `List Ensemble` (generic list where
the operation is generic in the item type). -/

/-- The summand `Number(item[key] || 0)` of `EnsembleCollection.sum`. -/
def sumTerm (m : Ensemble) (k : String) : JsNum :=
  (jsOr (m.getAttr k) (.num 0)).toNumber

/-- `EnsembleCollection.sum`: no key gives `0`; otherwise
`reduce((sum, item) => sum + Number(item[key] || 0), 0)`. -/
def EnsembleCollection.sum (l : List Ensemble) (key : Option String) : JsNum :=
  match key with
  | none => some 0
  | some k => l.foldl (fun acc m => jsAdd acc (sumTerm m k)) (some 0)

/-- `EnsembleCollection.avg`: `0` on an empty collection, otherwise
`sum(key) / length`. -/
def EnsembleCollection.avg (l : List Ensemble) (key : Option String) : JsNum :=
  if l.length = 0 then some 0
  else jsDiv (EnsembleCollection.sum l key) (some (l.length : ℚ))

/-- `EnsembleCollection.min`: `undefined` (here `none`) on an empty collection
or a missing key, otherwise the JS `Math.min` over `Number(item[key] || 0)`.
The outer `Option` is the `undefined` sentinel, the inner `JsNum` the number
(`NaN` propagating through `Math.min`). -/
def EnsembleCollection.min (l : List Ensemble) (key : Option String) :
    Option JsNum :=
  match l, key with
  | [], _ => none
  | _, none => none
  | m :: rest, some k =>
    some ((rest.map (fun x => sumTerm x k)).foldl
      (fun acc t =>
        match acc, t with
        | some a, some b => some (Min.min a b)
        | _, _ => none) (sumTerm m k))

/-- `EnsembleCollection.max`: `undefined` on an empty collection or a missing
key, otherwise the JS `Math.max` over `Number(item[key] || 0)`. -/
def EnsembleCollection.max (l : List Ensemble) (key : Option String) :
    Option JsNum :=
  match l, key with
  | [], _ => none
  | _, none => none
  | m :: rest, some k =>
    some ((rest.map (fun x => sumTerm x k)).foldl
      (fun acc t =>
        match acc, t with
        | some a, some b => some (Max.max a b)
        | _, _ => none) (sumTerm m k))

/-- Sorting with an explicit three-way comparator, as JS `Array.prototype.sort`
with comparator `c`: stable (ES2019), with `a` placed before `b` when
`c a b ≤ 0`; embedded as the stable `List.mergeSort`. -/
def sortByCmp {α : Type} (c : α → α → Int) (l : List α) : List α :=
  l.mergeSort (fun a b => decide (c a b ≤ 0))

/-- `EnsembleCollection.sortBy` with a key: sorts a copy with the comparator
`(a, b) => aVal < bVal ? -1 : aVal > bVal ? 1 : 0` over the key values. -/
def EnsembleCollection.sortBy {α K : Type} [LinearOrder K] (k : α → K)
    (l : List α) : List α :=
  sortByCmp (fun a b =>
    if k a < k b then -1 else if k b < k a then 1 else 0) l

/-- `EnsembleCollection.sortByDesc`: delegates to the comparator form with
`(a, b) => aVal < bVal ? 1 : aVal > bVal ? -1 : 0`. -/
def EnsembleCollection.sortByDesc {α K : Type} [LinearOrder K] (k : α → K)
    (l : List α) : List α :=
  sortByCmp (fun a b =>
    if k a < k b then 1 else if k b < k a then -1 else 0) l

/-! ## Query/Record Builder state and execution semantics

`EnsembleBuilder` (its `hydrate`, `paginate`, `chunk`, `clone`) is in the
source tree; the generic `Query/Builder` base class it extends is not, so the
base builder's state fields (named as in `EnsembleBuilder.clone`) and the
denotational meaning of `offset`/`limit`/`get`/`count` are modelled from the
spec (§3 "Query State", §4.2 "Execution operations"). Execution is modelled
against the list of rows matching the builder's where/join/group state. -/

/-- A where clause of the builder's clause list (spec §3 / §4.2 typed
variants). `win`/`wnull` carry a negation flag for the `not` variants;
`wraw` is a raw fragment with its literal bindings. -/
inductive WhereC where
  | basic (column operator : String) (value : Value) (boolean : Bool)
  | win (column : String) (values : List Value) (notIn : Bool) (boolean : Bool)
  | wnull (column : String) (notNull : Bool) (boolean : Bool)
  | between (column : String) (lo hi : Value) (boolean : Bool)
  | wraw (sql : String) (bindings : List Value) (boolean : Bool)
deriving DecidableEq

/-- A join clause: `{ type, table, first, operator?, second? }`
(`src/Database/Contracts/QueryBuilderInterface.ts`). -/
structure JoinClause where
  type : String
  table : String
  first : String
  operator : Option String
  second : Option String
deriving DecidableEq

/-- An order-by clause: `{ column, direction }`. -/
structure OrderByClause where
  column : String
  direction : String
deriving DecidableEq

/-- A having clause: `having(column, operator, value)` carrying one bindable
value. -/
structure HavingClause where
  column : String
  operator : String
  value : Value
deriving DecidableEq

/-- A selected column: a plain column name, or a raw select fragment with its
literal bindings (`selectRaw`). -/
inductive SelCol where
  | col (name : String)
  | raw (sql : String) (bindings : List Value)
deriving DecidableEq

/-- Modelled from the spec: the base query builder's state (§3 "Query State"),
with the field names the source's `EnsembleBuilder.clone` copies
(`_columns`, `_distinct`, `_table`, `_wheres`, `_joins`, `_orders`,
`_groups`, `_havings`, `_limit`, `_offset`, `_bindings`). -/
structure BuilderState where
  _columns : List SelCol
  _distinct : Bool
  _table : String
  _wheres : List WhereC
  _joins : List JoinClause
  _orders : List OrderByClause
  _groups : List String
  _havings : List HavingClause
  _limit : Option Nat
  _offset : Option Nat
  _bindings : List Value
deriving DecidableEq

/-- A fresh builder targeting a table (the `EnsembleBuilder` constructor calls
`from(model.getTable())` on an otherwise empty state). -/
def BuilderState.init (table : String) : BuilderState :=
  ⟨[], false, table, [], [], [], [], [], none, none, []⟩

/-- `offset(value)`: sets the offset, returns the builder. -/
def BuilderState.offset (s : BuilderState) (v : Nat) : BuilderState :=
  { s with _offset := some v }

/-- `limit(value)`: sets the limit, returns the builder. -/
def BuilderState.limit (s : BuilderState) (v : Nat) : BuilderState :=
  { s with _limit := some v }

/-- `EnsembleBuilder.clone`: copies every clause sequence, the bindings list
and the scalar fields into a new builder (a structural copy; in this pure
value model the copy is the state itself). -/
def BuilderState.clone (s : BuilderState) : BuilderState :=
  ⟨s._columns.map id, s._distinct, s._table, s._wheres.map id, s._joins.map id,
   s._orders.map id, s._groups.map id, s._havings.map id, s._limit, s._offset,
   s._bindings.map id⟩

/-- Modelled from the spec: the denotation of `get()` (§4.2) against the rows
matching the builder's where/join/group state — the adapter returns the
matching rows after the builder's offset (default 0) and limit (default: all)
are applied. -/
def runGet (s : BuilderState) (rows : List Row) : List Row :=
  let afterOffset := rows.drop (s._offset.getD 0)
  match s._limit with
  | none => afterOffset
  | some l => afterOffset.take l

/-- Modelled from the spec: the denotation of `count()` (§4.2) — an aggregate
over the where/join/group state, ignoring selected columns, limit and offset:
the number of matching rows. -/
def runCount (_s : BuilderState) (rows : List Row) : Nat :=
  rows.length

/-- `EnsembleBuilder.newModelInstance(attributes, exists)`: a new instance of
the bound model with the given attributes, `exists` set, and `syncOriginal()`
called. -/
def newModelInstance (attrs : Row) (ex : Bool) : Ensemble :=
  Ensemble.syncOriginal { Ensemble.mkNew attrs with existsF := ex }

/-- `EnsembleBuilder.hydrate(items)`: each raw row becomes a model instance
with `exists = true`. -/
def hydrate (items : List Row) : List Ensemble :=
  items.map (fun item => newModelInstance item true)

/-- `EnsembleBuilder.get()`: the base builder's rows, hydrated. -/
def ensembleGet (s : BuilderState) (rows : List Row) : List Ensemble :=
  hydrate (runGet s rows)

/-- The result shape of `EnsembleBuilder.paginate`. The source's `from`/`to`
fields are named `fromIdx`/`toIdx` (`from` is reserved in Lean). -/
structure Paginated where
  data : List Ensemble
  total : Nat
  perPage : Nat
  currentPage : Nat
  lastPage : Nat
  fromIdx : Nat
  toIdx : Nat
deriving DecidableEq

/-- The `Math.ceil(total / perPage)` of `paginate`, on naturals:
`(total + perPage - 1) / perPage`. -/
def jsCeilDiv (total perPage : Nat) : Nat :=
  (total + perPage - 1) / perPage

/-- `EnsembleBuilder.paginate(perPage, page)`: a `count()` on one clone, an
`offset((page-1)*perPage).limit(perPage).get()` fetch on another, and the
result record with `lastPage = ceil(total/perPage)`,
`from = total > 0 ? offset + 1 : 0`, `to = min(offset + perPage, total)`. -/
def paginate (s : BuilderState) (rows : List Row) (perPage page : Nat) :
    Paginated :=
  let total := runCount s.clone rows
  let offset := (page - 1) * perPage
  let data := ensembleGet ((s.clone.offset offset).limit perPage) rows
  let lastPage := jsCeilDiv total perPage
  let fromIdx := if total > 0 then offset + 1 else 0
  let toIdx := Nat.min (offset + perPage) total
  ⟨data, total, perPage, page, lastPage, fromIdx, toIdx⟩

/-- The page-fetch loop of `EnsembleBuilder.chunk`, with explicit fuel (the
source's `do … while (true)` loop; every iteration either stops or moves the
offset past `size` more rows, so `rows.length + 1` fuel always suffices).
Returns the successive non-empty pages passed to the callback, in invocation
order; the loop stops after a page on which the callback returns `false`, and
before invoking the callback when a fetched page is empty. -/
def chunkGo (size : Nat) (s : BuilderState) (rows : List Row)
    (cb : List Ensemble → Bool) : Nat → Nat → List (List Ensemble)
  | 0, _ => []
  | fuel + 1, page =>
    let results := ensembleGet ((s.clone.offset ((page - 1) * size)).limit size) rows
    if results.length = 0 then []
    else if cb results then results :: chunkGo size s rows cb fuel (page + 1)
    else [results]

/-- `EnsembleBuilder.chunk(count, callback)`: pages are fetched from fresh
clones with `offset((page-1)*count).limit(count)` for `page = 1, 2, …`;
the returned list is the sequence of hydrated pages the callback was invoked
on. -/
def chunk (size : Nat) (s : BuilderState) (rows : List Row)
    (cb : List Ensemble → Bool) : List (List Ensemble) :=
  chunkGo size s rows cb (rows.length + 1) 1

/-- The specification recursion for chunked iteration: take the first `size`
rows as a page, recurse on the rest while the callback keeps returning
`true`; stop on an empty page. (For `size = 0` — excluded by the claims —
the recursion returns no pages.) -/
def chunkSpec : Nat → List Row → (List Ensemble → Bool) → List (List Ensemble)
  | _, [], _ => []
  | 0, _ :: _, _ => []
  | k + 1, r :: rs, cb =>
    let pg := hydrate ((r :: rs).take (k + 1))
    pg :: (if cb pg then chunkSpec (k + 1) ((r :: rs).drop (k + 1)) cb else [])
termination_by _ rows => rows.length
decreasing_by simp; omega

/-! ## Compilation to SQL text plus ordered bindings

Modelled from the spec (§4.2): the `Query/Builder` source file is not in the
source tree, so the compilation algorithm is modelled from the spec's words —
clauses are concatenated in the fixed order
`SELECT [DISTINCT] columns FROM table [JOIN…] [WHERE…] [GROUP BY…] [HAVING…]
[ORDER BY…] [LIMIT] [OFFSET]`, each value-carrying clause emits a `?`
placeholder, and the compile-time bindings list is built in the same order as
the clauses are emitted in the SQL string. Compilation is factored through a
token stream so that the value intended at each placeholder is explicit. -/

/-- A compilation token: a literal SQL fragment, or a `?` placeholder
carrying the value intended for it. -/
inductive Tok where
  | sql (s : String)
  | hole (v : Value)
deriving DecidableEq

/-- Render a token stream to SQL text: placeholders print as `?`. -/
def render : List Tok → String
  | [] => ""
  | .sql s :: ts => s ++ render ts
  | .hole _ :: ts => "?" ++ render ts

/-- The values intended at the placeholders of a token stream, in emission
order. -/
def holes (ts : List Tok) : List Value :=
  ts.filterMap (fun t => match t with | .sql _ => none | .hole v => some v)

/-- The number of positional `?` placeholders in a SQL string. -/
def countQ (s : String) : Nat := s.toList.count '?'

/-- Tokenise a raw fragment (`whereRaw`/`selectRaw`): its literal bindings are
contributed verbatim, one at each `?` of the fragment (spec §4.2 "raw
expressions contribute their own literal bindings array verbatim at the
position they occur"). A `?` left over after the bindings run out stays
literal text (that fragment is then malformed; well-formedness below rules it
out). -/
def rawToks : List Char → List Value → List Tok
  | [], _ => []
  | '?' :: cs, v :: vs => .hole v :: rawToks cs vs
  | '?' :: cs, [] => .sql "?" :: rawToks cs []
  | c :: cs, vs => .sql (String.singleton c) :: rawToks cs vs

/-- Placeholders for an `in (…)` value list, comma-separated. -/
def placeListToks : List Value → List Tok
  | [] => []
  | [v] => [.hole v]
  | v :: v' :: vs => .hole v :: .sql ", " :: placeListToks (v' :: vs)

/-- The connector stored on a where clause (`false` = `and`, `true` = `or`). -/
def WhereC.conn : WhereC → Bool
  | .basic _ _ _ b => b
  | .win _ _ _ b => b
  | .wnull _ _ b => b
  | .between _ _ _ b => b
  | .wraw _ _ b => b

/-- The bindable values a where clause carries, in emission order
(spec §4.2). -/
def whereCBindings : WhereC → List Value
  | .basic _ _ v _ => [v]
  | .win _ vs _ _ => vs
  | .wnull _ _ _ => []
  | .between _ lo hi _ => [lo, hi]
  | .wraw _ bs _ => bs

/-- Token emission for one where clause. An `in` over an empty value list
compiles to a never-true (`not in`: always-true) literal, so
`whereIn(key, [])` matches no rows without erroring (spec §8). -/
def whereCToks : WhereC → List Tok
  | .basic col op v _ => [.sql (col ++ " " ++ op ++ " "), .hole v]
  | .win col vs notIn _ =>
    if vs.isEmpty then [.sql (if notIn then "1 = 1" else "1 = 0")]
    else [.sql (col ++ (if notIn then " not in (" else " in ("))] ++
      placeListToks vs ++ [.sql ")"]
  | .wnull col notNull _ =>
    [.sql (col ++ (if notNull then " is not null" else " is null"))]
  | .between col lo hi _ =>
    [.sql (col ++ " between "), .hole lo, .sql " and ", .hole hi]
  | .wraw sql bs _ => rawToks sql.toList bs

/-- Token emission for the whole `where` section: the first clause's connector
is dropped, later clauses are joined with their stored connector (§4.2
"boolean combination"). -/
def whereRestToks : List WhereC → List Tok
  | [] => []
  | w :: ws =>
    [.sql (if w.conn then " or " else " and ")] ++ whereCToks w ++ whereRestToks ws

/-- The `where` section. -/
def whereSectionToks : List WhereC → List Tok
  | [] => []
  | w :: ws => [.sql " where "] ++ whereCToks w ++ whereRestToks ws

/-- Token emission for one having clause. -/
def havingToks (h : HavingClause) : List Tok :=
  [.sql (h.column ++ " " ++ h.operator ++ " "), .hole h.value]

/-- Later having clauses joined with `and`. -/
def havingRestToks : List HavingClause → List Tok
  | [] => []
  | h :: hs => [.sql " and "] ++ havingToks h ++ havingRestToks hs

/-- The `having` section. -/
def havingSectionToks : List HavingClause → List Tok
  | [] => []
  | h :: hs => [.sql " having "] ++ havingToks h ++ havingRestToks hs

/-- Token emission for one join clause: `… join table on first [op second]`.
The on-condition compares two columns, so it emits no placeholder. -/
def joinToks (j : JoinClause) : List Tok :=
  [.sql (" " ++ j.type ++ " join " ++ j.table ++ " on " ++ j.first ++
    (match j.operator, j.second with
     | some op, some sec => " " ++ op ++ " " ++ sec
     | _, _ => ""))]

/-- The join section. -/
def joinSectionToks : List JoinClause → List Tok
  | [] => []
  | j :: js => joinToks j ++ joinSectionToks js

/-- Token emission for one selected column. -/
def selColToks : SelCol → List Tok
  | .col n => [.sql n]
  | .raw sql bs => rawToks sql.toList bs

/-- Later selected columns, comma-separated. -/
def colRestToks : List SelCol → List Tok
  | [] => []
  | c :: cs => [.sql ", "] ++ selColToks c ++ colRestToks cs

/-- The column list: `*` when no columns were selected. -/
def columnsToks : List SelCol → List Tok
  | [] => [.sql "*"]
  | c :: cs => selColToks c ++ colRestToks cs

/-- Decimal digit characters. -/
def digitCh (d : Nat) : Char :=
  (['0', '1', '2', '3', '4', '5', '6', '7', '8', '9'].get? d).getD '0'

/-- Decimal rendering of a natural number (for inline `limit`/`offset`). -/
def natChars (n : Nat) : List Char :=
  if _h : n < 10 then [digitCh n]
  else natChars (n / 10) ++ [digitCh (n % 10)]
decreasing_by exact Nat.div_lt_self (by omega) (by omega)

/-- The `group by` section (no placeholders). -/
def groupSectionToks : List String → List Tok
  | [] => []
  | g :: gs => [.sql (" group by " ++ String.intercalate ", " (g :: gs))]

/-- The `order by` section (no placeholders). -/
def orderSectionToks : List OrderByClause → List Tok
  | [] => []
  | o :: os =>
    [.sql (" order by " ++
      String.intercalate ", " ((o :: os).map (fun c => c.column ++ " " ++ c.direction)))]

/-- The `limit` section, rendered inline (the spec lists only where, having,
join-on and raw fragments as binding-emitting clause types). -/
def limitToks : Option Nat → List Tok
  | none => []
  | some n => [.sql (" limit " ++ String.mk (natChars n))]

/-- The `offset` section, rendered inline. -/
def offsetToks : Option Nat → List Tok
  | none => []
  | some n => [.sql (" offset " ++ String.mk (natChars n))]

/-- Modelled from the spec: the full compilation of a builder state to a token
stream, concatenating the clause sections in the fixed order of §4.2. -/
def compileTokens (s : BuilderState) : List Tok :=
  [.sql ("select " ++ (if s._distinct then "distinct " else ""))] ++
  columnsToks s._columns ++
  [.sql (" from " ++ s._table)] ++
  joinSectionToks s._joins ++
  whereSectionToks s._wheres ++
  groupSectionToks s._groups ++
  havingSectionToks s._havings ++
  orderSectionToks s._orders ++
  limitToks s._limit ++
  offsetToks s._offset

/-- `toSql()`: the compiled SQL text. -/
def toSql (s : BuilderState) : String :=
  render (compileTokens s)

/-- The literal bindings a selected column carries. -/
def selColBindings : SelCol → List Value
  | .col _ => []
  | .raw _ bs => bs

/-- Modelled from the spec: `getBindings()` — the compile-time bindings list,
accumulated clause type by clause type in the order the clause sections are
emitted in the SQL string: select-raw bindings, then where values, then
having values (§4.2). -/
def getBindings (s : BuilderState) : List Value :=
  (s._columns.map selColBindings).flatten ++
  (s._wheres.map whereCBindings).flatten ++
  s._havings.map HavingClause.value

/-- A where/having/join-on configuration call, as quantified over by the
binding-alignment invariant. -/
inductive QOp where
  | whereB (column operator : String) (value : Value)
  | orWhere (column operator : String) (value : Value)
  | whereIn (column : String) (values : List Value)
  | whereNotIn (column : String) (values : List Value)
  | whereNull (column : String)
  | whereNotNull (column : String)
  | whereBetween (column : String) (lo hi : Value)
  | whereRaw (sql : String) (bindings : List Value)
  | joinOp (table first operator second : String)
  | leftJoin (table first operator second : String)
  | rightJoin (table first operator second : String)
  | having (column operator : String) (value : Value)
deriving DecidableEq

/-- Modelled from the spec: each configuration call appends to the
corresponding clause sequence and never executes SQL (§4.2). -/
def applyQOp (op : QOp) (s : BuilderState) : BuilderState :=
  match op with
  | .whereB col o v => { s with _wheres := s._wheres ++ [.basic col o v false] }
  | .orWhere col o v => { s with _wheres := s._wheres ++ [.basic col o v true] }
  | .whereIn col vs => { s with _wheres := s._wheres ++ [.win col vs false false] }
  | .whereNotIn col vs => { s with _wheres := s._wheres ++ [.win col vs true false] }
  | .whereNull col => { s with _wheres := s._wheres ++ [.wnull col false false] }
  | .whereNotNull col => { s with _wheres := s._wheres ++ [.wnull col true false] }
  | .whereBetween col lo hi => { s with _wheres := s._wheres ++ [.between col lo hi false] }
  | .whereRaw sql bs => { s with _wheres := s._wheres ++ [.wraw sql bs false] }
  | .joinOp t f o sec => { s with _joins := s._joins ++ [⟨"inner", t, f, some o, some sec⟩] }
  | .leftJoin t f o sec => { s with _joins := s._joins ++ [⟨"left", t, f, some o, some sec⟩] }
  | .rightJoin t f o sec => { s with _joins := s._joins ++ [⟨"right", t, f, some o, some sec⟩] }
  | .having col o v => { s with _havings := s._havings ++ [⟨col, o, v⟩] }

/-- Apply a sequence of configuration calls left to right. -/
def applyQOps (ops : List QOp) (s : BuilderState) : BuilderState :=
  ops.foldl (fun acc op => applyQOp op acc) s

/-- Well-formedness of one configuration call: user-supplied identifier
strings contain no `?`, and a raw fragment carries exactly one binding per
`?` it contains. -/
def wfQOp : QOp → Bool
  | .whereB col o _ => decide (countQ col = 0) && decide (countQ o = 0)
  | .orWhere col o _ => decide (countQ col = 0) && decide (countQ o = 0)
  | .whereIn col _ => decide (countQ col = 0)
  | .whereNotIn col _ => decide (countQ col = 0)
  | .whereNull col => decide (countQ col = 0)
  | .whereNotNull col => decide (countQ col = 0)
  | .whereBetween col _ _ => decide (countQ col = 0)
  | .whereRaw sql bs => decide (countQ sql = bs.length)
  | .joinOp t f o sec => decide (countQ t = 0) && decide (countQ f = 0) &&
      decide (countQ o = 0) && decide (countQ sec = 0)
  | .leftJoin t f o sec => decide (countQ t = 0) && decide (countQ f = 0) &&
      decide (countQ o = 0) && decide (countQ sec = 0)
  | .rightJoin t f o sec => decide (countQ t = 0) && decide (countQ f = 0) &&
      decide (countQ o = 0) && decide (countQ sec = 0)
  | .having col o _ => decide (countQ col = 0) && decide (countQ o = 0)

/-- Well-formedness of a where clause in the builder state. -/
def wfWhereC : WhereC → Bool
  | .basic col o _ _ => decide (countQ col = 0) && decide (countQ o = 0)
  | .win col _ _ _ => decide (countQ col = 0)
  | .wnull col _ _ => decide (countQ col = 0)
  | .between col _ _ _ => decide (countQ col = 0)
  | .wraw sql bs _ => decide (countQ sql = bs.length)

/-- Well-formedness of a having clause. -/
def wfHaving (h : HavingClause) : Bool :=
  decide (countQ h.column = 0) && decide (countQ h.operator = 0)

/-- Well-formedness of a join clause. -/
def wfJoin (j : JoinClause) : Bool :=
  decide (countQ j.type = 0) && decide (countQ j.table = 0) &&
  decide (countQ j.first = 0) &&
  (match j.operator with | some o => decide (countQ o = 0) | none => true) &&
  (match j.second with | some sec => decide (countQ sec = 0) | none => true)

/-! ## Clone and the absence of shared mutable state

`EnsembleBuilder.clone` copies every array-valued field with a spread
(`[...this._wheres]` etc.) and the eager-load registration object with
`{...this.eagerLoad}`. To make the no-aliasing content of that copy provable,
the array-valued fields are modelled as references into an explicit store of
arrays: fluent mutations push onto the referenced array in place, and clone
allocates fresh references holding copies of the contents. -/

/-- A value held in one of the builder's mutable arrays. -/
inductive HVal where
  | w (c : WhereC)
  | j (c : JoinClause)
  | o (c : OrderByClause)
  | g (x : String)
  | h (c : HavingClause)
  | v (x : Value)
  | c (x : SelCol)
  | rel (name : String)
deriving DecidableEq

/-- The store of mutable arrays, addressed by allocation index. -/
abbrev Store : Type := List (List HVal)

/-- Read the array at a reference (unallocated references read as empty). -/
def getRef (σ : Store) (i : Nat) : List HVal :=
  (σ[i]?).getD []

/-- Overwrite the array at a reference. -/
def setRef (σ : Store) (i : Nat) (l : List HVal) : Store :=
  σ.set i l

/-- Push one element onto the array at a reference (a JS `Array.push`). -/
def pushRef (σ : Store) (i : Nat) (x : HVal) : Store :=
  setRef σ i (getRef σ i ++ [x])

/-- The reference/value view of an `EnsembleBuilder`: each array-valued field
(`_columns`, `_wheres`, `_joins`, `_orders`, `_groups`, `_havings`,
`_bindings`, `eagerLoad`) is a reference into the store; scalar fields are
held by value. -/
structure BRef where
  columns : Nat
  wheres : Nat
  joins : Nat
  orders : Nat
  groups : Nat
  havings : Nat
  bindings : Nat
  eager : Nat
  distinct : Bool
  table : String
  limit : Option Nat
  offset : Option Nat
deriving DecidableEq

/-- The references a builder holds, in field order. -/
def BRef.refs (b : BRef) : List Nat :=
  [b.columns, b.wheres, b.joins, b.orders, b.groups, b.havings, b.bindings, b.eager]

/-- The observable state of a builder: the contents of its eight arrays
(clause sequences, bindings list, eager-load registrations). -/
def readAll (b : BRef) (σ : Store) : List (List HVal) :=
  b.refs.map (getRef σ)

/-- A fluent mutation of a builder: appending a clause, column, binding or
eager-load registration, or setting a scalar field. -/
inductive MOp where
  | select (x : SelCol)
  | whereAdd (x : WhereC)
  | joinAdd (x : JoinClause)
  | orderAdd (x : OrderByClause)
  | groupAdd (x : String)
  | havingAdd (x : HavingClause)
  | bindAdd (x : Value)
  | withRel (name : String)
  | setLimit (n : Nat)
  | setOffset (n : Nat)
  | setTable (t : String)
  | setDistinct
deriving DecidableEq

/-- Apply one fluent mutation to a builder: array-valued fields are mutated in
place through the builder's reference; scalar fields are reassigned on the
builder. -/
def applyM (op : MOp) (b : BRef) (σ : Store) : BRef × Store :=
  match op with
  | .select x => (b, pushRef σ b.columns (.c x))
  | .whereAdd x => (b, pushRef σ b.wheres (.w x))
  | .joinAdd x => (b, pushRef σ b.joins (.j x))
  | .orderAdd x => (b, pushRef σ b.orders (.o x))
  | .groupAdd x => (b, pushRef σ b.groups (.g x))
  | .havingAdd x => (b, pushRef σ b.havings (.h x))
  | .bindAdd x => (b, pushRef σ b.bindings (.v x))
  | .withRel name => (b, pushRef σ b.eager (.rel name))
  | .setLimit n => ({ b with limit := some n }, σ)
  | .setOffset n => ({ b with offset := some n }, σ)
  | .setTable t => ({ b with table := t }, σ)
  | .setDistinct => ({ b with distinct := true }, σ)

/-- `EnsembleBuilder.clone` in the store model: a new builder whose eight
array fields are freshly allocated arrays holding copies of the original's
contents (the source's `[...this._xs]` spreads and `{...this.eagerLoad}`),
and whose scalar fields are copied by value. -/
def cloneRef (b : BRef) (σ : Store) : BRef × Store :=
  let n := σ.length
  (⟨n, n + 1, n + 2, n + 3, n + 4, n + 5, n + 6, n + 7,
    b.distinct, b.table, b.limit, b.offset⟩,
   σ ++ [getRef σ b.columns, getRef σ b.wheres, getRef σ b.joins,
         getRef σ b.orders, getRef σ b.groups, getRef σ b.havings,
         getRef σ b.bindings, getRef σ b.eager])

/-- A builder is valid in a store when all its references are allocated. -/
def wfRef (b : BRef) (σ : Store) : Prop :=
  ∀ r ∈ b.refs, r < σ.length

instance (b : BRef) (σ : Store) : Decidable (wfRef b σ) := by
  unfold wfRef; infer_instance

/-! ## DatabaseManager connection resolution

Translated from `DatabaseManager` (`createConnection` / `connection`). -/

/-- A configured connection: the adapter name it requests (the remaining
config fields play no part in the claims and are omitted). -/
structure ConnCfg where
  adapter : String
deriving DecidableEq

/-- The manager's configuration: a default connection name and the
connections map. -/
structure ManagerConfig where
  dfault : String
  connections : List (String × ConnCfg)
deriving DecidableEq

/-- A constructed connection handle (`new Connection(adapter, config)`). -/
structure Conn where
  adapterName : String
deriving DecidableEq

/-- The manager: configuration, registered adapter factories (by name), and
the connection cache. -/
structure Manager where
  config : ManagerConfig
  adapterFactories : List String
  connections : List (String × Conn)
deriving DecidableEq

/-- Look a connection name up in the configured connections map. -/
def lookupCfg : List (String × ConnCfg) → String → Option ConnCfg
  | [], _ => none
  | (k, v) :: rest, key => if k = key then some v else lookupCfg rest key

/-- Look a connection name up in the manager's cache. -/
def lookupConn : List (String × Conn) → String → Option Conn
  | [], _ => none
  | (k, v) :: rest, key => if k = key then some v else lookupConn rest key

/-- A configuration error thrown by `createConnection`. -/
inductive DBErr where
  | connectionNotConfigured (name : String)
  | adapterNotRegistered (name : String)
deriving DecidableEq

/-- An observable side effect of connection creation: invoking an adapter
factory, or constructing a `Connection`. -/
inductive Eff where
  | factoryInvoked (adapter : String)
  | connectionConstructed
deriving DecidableEq

/-- `DatabaseManager.createConnection(name)`: look the name up in the
configured connections; missing → throw `Database connection [name] not
configured.`; then look the configured adapter up among the registered
factories; missing → throw `Database adapter [name] not registered.`; both
throws happen before the factory is invoked or a `Connection` constructed.
The effect list records what was executed. -/
def createConnection (m : Manager) (name : String) :
    Except DBErr Conn × List Eff :=
  match lookupCfg m.config.connections name with
  | none => (.error (.connectionNotConfigured name), [])
  | some cfg =>
    if m.adapterFactories.contains cfg.adapter then
      (.ok ⟨cfg.adapter⟩, [.factoryInvoked cfg.adapter, .connectionConstructed])
    else
      (.error (.adapterNotRegistered cfg.adapter), [])

/-- `DatabaseManager.connection(name?)`: resolve the name (default when
absent), return a cached connection if present, otherwise create one and
cache it; a creation failure propagates and caches nothing. -/
def connection (m : Manager) (name : Option String) :
    (Except DBErr Conn × List Eff) × Manager :=
  match lookupConn m.connections (name.getD m.config.dfault) with
  | some c => ((.ok c, []), m)
  | none =>
    match createConnection m (name.getD m.config.dfault) with
    | (.ok c, effs) => ((.ok c, effs),
        { m with connections := m.connections ++ [(name.getD m.config.dfault, c)] })
    | (.error e, effs) => ((.error e, effs), m)

/-! ## Specification-side comparison definitions and example inputs -/

/-- The claim's reading of a `sum` summand (stated for comparison with the
source behaviour): the attribute's numeric value, with missing or non-numeric
values coerced to `0`. -/
def claimSumTerm (m : Ensemble) (k : String) : ℚ :=
  match m.getAttr k with
  | .num q => q
  | _ => 0

/-- The claim's reading of `sum(key)`: the plain rational sum of
`claimSumTerm` over the collection. -/
def claimSum (l : List Ensemble) (k : String) : ℚ :=
  (l.map (fun m => claimSumTerm m k)).sum

/-- Sum of a list of JS numbers: the rational sum when every entry is an
ordinary number, `NaN` as soon as one entry is `NaN`. -/
def optSum (ts : List JsNum) : JsNum :=
  if ts.all Option.isSome then some ((ts.filterMap id).sum) else none

/-- Example record with numeric attribute `x = 3`. -/
def exM1 : Ensemble := newModelInstance [("x", Value.num 3)] true

/-- Example record with numeric attribute `x = 4`. -/
def exM2 : Ensemble := newModelInstance [("x", Value.num 4)] true

/-- Example record whose attribute `x` holds the non-numeric value `true`. -/
def exMBool : Ensemble := newModelInstance [("x", Value.bool true)] true

/-- Example manager: one configured connection `main` requesting the
unregistered adapter `sqlite`; empty factory and cache maps. -/
def exManager : Manager := ⟨⟨"main", [("main", ⟨"sqlite"⟩)]⟩, [], []⟩

/-- Example store of eight allocated empty arrays. -/
def exStore : Store := [[], [], [], [], [], [], [], []]

/-- Example builder owning the eight arrays of `exStore`. -/
def exBRef : BRef := ⟨0, 1, 2, 3, 4, 5, 6, 7, false, "users", none, none⟩

/-- `n` distinct example rows `{id: i}`. -/
def exRows (n : Nat) : List Row :=
  (List.range n).map (fun (i : Nat) => [("id", Value.num (i : ℚ))])

/-- A token is clean when it is a placeholder or a literal fragment free of
`?`. -/
def Tok.isClean : Tok → Bool
  | .sql s => decide (countQ s = 0)
  | .hole _ => true

/-- A token stream whose literal fragments contain no stray `?`. -/
def toksClean (ts : List Tok) : Bool :=
  ts.all Tok.isClean

/-! ## Theorems -/

/-- C7: for every empty Record Collection and every attribute key, `sum` and
`avg` return `0`, while `min` and `max` return the nothing-found sentinel
`undefined` (`none`), never `0`. -/
theorem claim_C7_empty_aggregates (k : String) :
    EnsembleCollection.sum [] (some k) = some 0 ∧
    EnsembleCollection.avg [] (some k) = some 0 ∧
    EnsembleCollection.min [] (some k) = none ∧
    EnsembleCollection.max [] (some k) = none ∧
    EnsembleCollection.min [] (some k) ≠ some (some 0) ∧
    EnsembleCollection.max [] (some k) ≠ some (some 0) := by
  refine ⟨rfl, rfl, rfl, rfl, ?_, ?_⟩ <;> simp [EnsembleCollection.min, EnsembleCollection.max]

/-- `jsAdd` with a `NaN` accumulator stays `NaN` through a fold. -/
theorem foldl_jsAdd_none (f : Ensemble → JsNum) (l : List Ensemble) :
    l.foldl (fun acc m => jsAdd acc (f m)) none = none := by
  induction l with
  | nil => rfl
  | cons m rest ih =>
    have : jsAdd none (f m) = none := by cases f m <;> rfl
    simpa [this] using ih

/-- The source's `reduce` over `jsAdd`, started at an ordinary number, equals
the all-or-`NaN` sum. -/
theorem foldl_jsAdd_eq (f : Ensemble → JsNum) (l : List Ensemble) (q : ℚ) :
    l.foldl (fun acc m => jsAdd acc (f m)) (some q) =
      if (l.map f).all Option.isSome then
        some (q + ((l.map f).filterMap id).sum)
      else none := by
  induction l generalizing q with
  | nil => simp
  | cons m rest ih =>
    cases hm : f m with
    | none =>
      simp only [List.foldl_cons, List.map_cons, List.all_cons, hm]
      have : jsAdd (some q) none = none := rfl
      simp [this, foldl_jsAdd_none]
    | some b =>
      simp only [List.foldl_cons, List.map_cons, List.all_cons, hm]
      have : jsAdd (some q) (some b) = some (q + b) := rfl
      simp [this, ih (q + b), add_assoc]

/-- C8 (counterexample): on a record whose attribute `x` holds the non-numeric
value `true`, the source's `sum("x")` is `1` — JS `Number(true || 0)` is `1` —
whereas coercing every non-numeric value to `0`, as the claim states, would
give `0`. -/
theorem claim_C8_counterexample :
    EnsembleCollection.sum [exMBool] (some "x") = some 1 ∧
    claimSum [exMBool] "x" = 0 ∧
    EnsembleCollection.sum [exMBool] (some "x") ≠ some (claimSum [exMBool] "x") := by
  have h1 : EnsembleCollection.sum [exMBool] (some "x") = some 1 := by
    norm_num [EnsembleCollection.sum, sumTerm, exMBool, newModelInstance,
      Ensemble.mkNew, Ensemble.syncOriginal, Ensemble.getAttr, rowGet, jsOr,
      Value.truthy, Value.toNumber, jsAdd]
  have h2 : claimSum [exMBool] "x" = 0 := by
    norm_num [claimSum, claimSumTerm, exMBool, newModelInstance,
      Ensemble.mkNew, Ensemble.syncOriginal, Ensemble.getAttr, rowGet]
  refine ⟨h1, h2, ?_⟩
  rw [h1, h2]
  intro hc
  rw [Option.some_inj] at hc
  norm_num at hc

/-- C8 (amended): `sum(key)` equals the sum over all records of the JS
coercion `Number(value || 0)` of that record's attribute value — missing and
falsy values coerce to `0`, truthy non-numeric values follow JS `Number`
coercion (`true → 1`, non-numeric strings → `NaN`, which propagates to the
whole sum) — and `avg(key)` on a non-empty collection equals that sum divided
by the collection length. -/
theorem claim_C8_sum_avg (l : List Ensemble) (k : String) :
    EnsembleCollection.sum l (some k) = optSum (l.map (fun m => sumTerm m k)) ∧
    (l ≠ [] → EnsembleCollection.avg l (some k) =
      jsDiv (EnsembleCollection.sum l (some k)) (some (l.length : ℚ))) ∧
    (∀ S : ℚ, l ≠ [] → EnsembleCollection.sum l (some k) = some S →
      EnsembleCollection.avg l (some k) = some (S / (l.length : ℚ))) := by
  refine ⟨?_, ?_, ?_⟩
  · rw [EnsembleCollection.sum, foldl_jsAdd_eq, optSum]
    split <;> simp
  · intro hl
    rw [EnsembleCollection.avg, if_neg (by simpa using (List.length_pos.mpr hl).ne')]
  · intro S hl hS
    have hlen : (l.length : ℚ) ≠ 0 := by
      exact_mod_cast (List.length_pos.mpr hl).ne'
    rw [EnsembleCollection.avg, if_neg (by simpa using (List.length_pos.mpr hl).ne'), hS]
    simp [jsDiv, hlen]

/-- C8 (witness): the amended statement evaluated on two records with
`x = 3` and `x = 4`: the sum is `7` and the average is `7 / 2`. -/
theorem claim_C8_sum_avg_witness :
    ([exM1, exM2] : List Ensemble) ≠ [] ∧
    EnsembleCollection.sum [exM1, exM2] (some "x") = some 7 ∧
    EnsembleCollection.avg [exM1, exM2] (some "x") = some (7 / 2) := by
  have hsum : EnsembleCollection.sum [exM1, exM2] (some "x") = some 7 := by
    norm_num [EnsembleCollection.sum, sumTerm, exM1, exM2, newModelInstance,
      Ensemble.mkNew, Ensemble.syncOriginal, Ensemble.getAttr, rowGet, jsOr,
      Value.truthy, Value.toNumber, jsAdd]
  refine ⟨by simp, hsum, ?_⟩
  have h := (claim_C8_sum_avg [exM1, exM2] "x").2.2 7 (by simp) hsum
  norm_num at h
  convert h using 2

/-- C5: every record produced by the hydration path is a new instance whose
attributes come from the raw row, whose `exists` flag is true, and whose
baseline equals its attributes, so a freshly hydrated record reports zero
dirty attributes. -/
theorem claim_C5_hydration (s : BuilderState) (rows : List Row) :
    (∀ r : Row,
      newModelInstance r true = ⟨r, r, true⟩ ∧
      (newModelInstance r true).existsF = true ∧
      (newModelInstance r true).attributes = r ∧
      (newModelInstance r true).original = (newModelInstance r true).attributes ∧
      ∀ k : String, (newModelInstance r true).isDirty k = false) ∧
    hydrate rows = rows.map (fun r => ⟨r, r, true⟩) ∧
    ensembleGet s rows = (runGet s rows).map (fun r => ⟨r, r, true⟩) := by
  have hmk : ∀ r : Row, newModelInstance r true = ⟨r, r, true⟩ := by
    intro r
    rfl
  refine ⟨fun r => ⟨hmk r, rfl, rfl, rfl, fun k => ?_⟩, ?_, ?_⟩
  · simp [Ensemble.isDirty, Ensemble.getAttr, Ensemble.getOriginal, hmk r]
  · unfold hydrate
    exact List.map_congr_left (fun r _ => hmk r)
  · unfold ensembleGet hydrate
    exact List.map_congr_left (fun r _ => hmk r)

/-- A `createConnection` failure performs no effects: no adapter factory is
invoked and no connection is constructed. -/
theorem createConnection_error_no_effects (m : Manager) (n : String)
    (e : DBErr) (effs : List Eff)
    (h : createConnection m n = (Except.error e, effs)) : effs = [] := by
  unfold createConnection at h
  rcases hl : lookupCfg m.config.connections n with _ | cfg <;> rw [hl] at h
  · cases h
    rfl
  · rcases hcont : m.adapterFactories.contains cfg.adapter with _ | _
    · simp only [hcont, Bool.false_eq_true, if_false, Prod.mk.injEq] at h
      exact h.2.symm
    · simp only [hcont, if_true, Prod.mk.injEq] at h
      exact absurd h.1 (by simp)

/-- C9: requesting a connection whose name is absent from the configured
connections map, or whose configured adapter has no registered factory, fails
fast at call time with a configuration error — before any factory invocation
or connection construction — and the failure is not retried: the manager is
left unchanged and a repeated call returns the same error. -/
theorem claim_C9_config_error (m : Manager) (name : Option String) :
    (lookupCfg m.config.connections (name.getD m.config.dfault) = none →
      createConnection m (name.getD m.config.dfault) =
        (.error (.connectionNotConfigured (name.getD m.config.dfault)), [])) ∧
    (∀ cfg, lookupCfg m.config.connections (name.getD m.config.dfault) = some cfg →
      m.adapterFactories.contains cfg.adapter = false →
      createConnection m (name.getD m.config.dfault) =
        (.error (.adapterNotRegistered cfg.adapter), [])) ∧
    (∀ e effs m', lookupConn m.connections (name.getD m.config.dfault) = none →
      connection m name = ((.error e, effs), m') →
      m' = m ∧ effs = [] ∧ connection m' name = ((.error e, effs), m')) := by
  refine ⟨?_, ?_, ?_⟩
  · intro h
    unfold createConnection
    rw [h]
  · intro cfg hcfg hfac
    unfold createConnection
    rw [hcfg]
    simp only [hfac, Bool.false_eq_true, if_false]
  · intro e effs m' hcache hcall
    have hconn : connection m name =
        (match createConnection m (name.getD m.config.dfault) with
         | (.ok c, effs') => ((.ok c, effs'),
             { m with connections := m.connections ++ [(name.getD m.config.dfault, c)] })
         | (.error e', effs') => ((.error e', effs'), m)) := by
      unfold connection
      rw [hcache]
    rcases hcc : createConnection m (name.getD m.config.dfault) with ⟨res, effs'⟩
    cases res with
    | ok c =>
      rw [hconn, hcc] at hcall
      simp at hcall
    | error e' =>
      rw [hconn, hcc] at hcall
      simp only [Prod.mk.injEq] at hcall
      obtain ⟨⟨he, heffs⟩, hm⟩ := hcall
      have heffs0 : effs = [] := by
        rw [← heffs]
        exact createConnection_error_no_effects m _ e' effs' hcc
      refine ⟨hm.symm, heffs0, ?_⟩
      rw [← hm, hconn, hcc, he, heffs]

/-- C9 (witness): on the example manager, requesting the unconfigured name
`missing` fails with `connectionNotConfigured` and no effects, and requesting
`main` — whose adapter `sqlite` has no registered factory — fails with
`adapterNotRegistered` and no effects. -/
theorem claim_C9_config_error_witness :
    lookupCfg exManager.config.connections "missing" = none ∧
    createConnection exManager "missing" =
      (.error (.connectionNotConfigured "missing"), []) ∧
    createConnection exManager "main" =
      (.error (.adapterNotRegistered "sqlite"), []) := by
  refine ⟨by decide, ?_, ?_⟩
  · exact (claim_C9_config_error exManager (some "missing")).1 (by decide)
  · exact (claim_C9_config_error exManager (some "main")).2.1 ⟨"sqlite"⟩ (by decide) (by decide)

/-- `(total + perPage - 1) / perPage` on naturals is exactly
`Math.ceil(total / perPage)` on exact arithmetic. -/
theorem jsCeilDiv_eq_ceil (a b : Nat) (hb : 1 ≤ b) :
    (jsCeilDiv a b : ℤ) = ⌈(a : ℚ) / (b : ℚ)⌉ := by
  have hb0 : 0 < b := hb
  unfold jsCeilDiv
  set n := (a + b - 1) / b with hn
  have h1 : n * b ≤ a + b - 1 := Nat.div_mul_le_self _ _
  have h2 : a + b - 1 < (n + 1) * b :=
    (Nat.div_lt_iff_lt_mul hb0).mp (Nat.lt_succ_self n)
  rw [Nat.succ_mul] at h2
  have hle : a ≤ n * b := by omega
  have hlt : n * b < a + b := by omega
  have hbq : (0 : ℚ) < (b : ℚ) := by exact_mod_cast hb0
  have hleq : (a : ℚ) ≤ (n : ℚ) * b := by exact_mod_cast hle
  have hltq : (n : ℚ) * b < (a : ℚ) + b := by exact_mod_cast hlt
  symm
  rw [Int.ceil_eq_iff]
  constructor
  · rw [lt_div_iff₀ hbq]
    push_cast
    nlinarith
  · rw [div_le_iff₀ hbq]
    push_cast
    nlinarith

/-- C2: `paginate(perPage, page)` counts on one clone, fetches
`offset((page-1)*perPage).limit(perPage)` on another, and returns
`{data, total, perPage, currentPage: page, lastPage: ceil(total/perPage),
from, to}` with `from`/`to` 1-indexed and both `0` when `total` is `0`;
on 25 matching rows with `perPage = 10`, `page = 2` it returns total 25,
lastPage 3, from 11, to 20, and 10 data records. -/
theorem claim_C2_paginate (s : BuilderState) (rows : List Row)
    (perPage page : Nat) (hp : 1 ≤ perPage) (_hq : 1 ≤ page) :
    (paginate s rows perPage page).total = rows.length ∧
    (paginate s rows perPage page).perPage = perPage ∧
    (paginate s rows perPage page).currentPage = page ∧
    (paginate s rows perPage page).total = runCount s.clone rows ∧
    (paginate s rows perPage page).data =
      ensembleGet ((s.clone.offset ((page - 1) * perPage)).limit perPage) rows ∧
    (paginate s rows perPage page).data =
      hydrate ((rows.drop ((page - 1) * perPage)).take perPage) ∧
    ((paginate s rows perPage page).lastPage : ℤ) =
      ⌈(rows.length : ℚ) / (perPage : ℚ)⌉ ∧
    (paginate s rows perPage page).fromIdx =
      (if 0 < rows.length then (page - 1) * perPage + 1 else 0) ∧
    (paginate s rows perPage page).toIdx =
      Nat.min ((page - 1) * perPage + perPage) rows.length ∧
    (rows.length = 0 →
      (paginate s rows perPage page).fromIdx = 0 ∧
      (paginate s rows perPage page).toIdx = 0) ∧
    (rows.length = 25 → perPage = 10 → page = 2 →
      (paginate s rows perPage page).total = 25 ∧
      (paginate s rows perPage page).lastPage = 3 ∧
      (paginate s rows perPage page).fromIdx = 11 ∧
      (paginate s rows perPage page).toIdx = 20 ∧
      (paginate s rows perPage page).data.length = 10) := by
  have hdata : (paginate s rows perPage page).data =
      hydrate ((rows.drop ((page - 1) * perPage)).take perPage) := rfl
  refine ⟨rfl, rfl, rfl, rfl, rfl, hdata, ?_, rfl, rfl, ?_, ?_⟩
  · exact jsCeilDiv_eq_ceil rows.length perPage hp
  · intro h0
    constructor
    · show (if rows.length > 0 then (page - 1) * perPage + 1 else 0) = 0
      rw [h0]
      rfl
    · show Nat.min ((page - 1) * perPage + perPage) rows.length = 0
      rw [h0]
      exact Nat.min_zero _
  · intro h25 h10 h2
    have hlen : (paginate s rows perPage page).data.length =
        Nat.min perPage (rows.length - (page - 1) * perPage) := by
      rw [hdata]
      simp [hydrate, List.length_take, List.length_drop]
    refine ⟨by simp [paginate, runCount, h25], ?_, ?_, ?_, ?_⟩
    · show jsCeilDiv rows.length perPage = 3
      rw [h25, h10]
      rfl
    · show (if rows.length > 0 then (page - 1) * perPage + 1 else 0) = 11
      rw [h25, h10, h2]
      rfl
    · show Nat.min ((page - 1) * perPage + perPage) rows.length = 20
      rw [h25, h10, h2]
      rfl
    · rw [hlen, h25, h10, h2]
      rfl

/-- C2 (witness): the pagination formulas evaluated at 25 example rows with
`perPage = 10`, `page = 2`. -/
theorem claim_C2_paginate_witness :
    1 ≤ 10 ∧ 1 ≤ 2 ∧ (exRows 25).length = 25 ∧
    (paginate (BuilderState.init "t") (exRows 25) 10 2).total = 25 ∧
    (paginate (BuilderState.init "t") (exRows 25) 10 2).lastPage = 3 ∧
    (paginate (BuilderState.init "t") (exRows 25) 10 2).fromIdx = 11 ∧
    (paginate (BuilderState.init "t") (exRows 25) 10 2).toIdx = 20 ∧
    (paginate (BuilderState.init "t") (exRows 25) 10 2).data.length = 10 := by
  have hlen : (exRows 25).length = 25 := by
    unfold exRows
    rw [List.length_map, List.length_range]
  have h := (claim_C2_paginate (BuilderState.init "t") (exRows 25) 10 2
    (by norm_num) (by norm_num)).2.2.2.2.2.2.2.2.2.2 hlen rfl rfl
  exact ⟨by norm_num, by norm_num, hlen, h⟩

/-- C10: for every positive total, `paginate` returns
`from = (page-1)*perPage + 1` unconditionally and
`to = min(page*perPage, total)`; when the requested page lies beyond the last
page the data array is empty and `from` exceeds both `to` and `total` —
`from` is not clamped to the actual row range. -/
theorem claim_C10_from_unclamped (s : BuilderState) (rows : List Row)
    (perPage page : Nat) (hq : 1 ≤ page) (ht : 0 < rows.length) :
    (paginate s rows perPage page).fromIdx = (page - 1) * perPage + 1 ∧
    (paginate s rows perPage page).toIdx =
      Nat.min (page * perPage) rows.length ∧
    (rows.length ≤ (page - 1) * perPage →
      (paginate s rows perPage page).data = [] ∧
      (paginate s rows perPage page).toIdx <
        (paginate s rows perPage page).fromIdx ∧
      rows.length < (paginate s rows perPage page).fromIdx) := by
  have hfrom : (paginate s rows perPage page).fromIdx = (page - 1) * perPage + 1 := by
    show (if rows.length > 0 then (page - 1) * perPage + 1 else 0) = _
    rw [if_pos ht]
  have hmul : (page - 1) * perPage + perPage = page * perPage := by
    obtain ⟨p, rfl⟩ := Nat.exists_eq_add_of_le hq
    have h1 : 1 + p - 1 = p := Nat.add_sub_cancel_left 1 p
    rw [h1]
    ring
  have hto : (paginate s rows perPage page).toIdx =
      Nat.min (page * perPage) rows.length := by
    show Nat.min ((page - 1) * perPage + perPage) rows.length = _
    rw [hmul]
  refine ⟨hfrom, hto, ?_⟩
  intro hbeyond
  refine ⟨?_, ?_, ?_⟩
  · show hydrate ((rows.drop ((page - 1) * perPage)).take perPage) = []
    rw [List.drop_eq_nil_of_le hbeyond, List.take_nil]
    rfl
  · rw [hfrom]
    show Nat.min ((page - 1) * perPage + perPage) rows.length < _
    have h1 : Nat.min ((page - 1) * perPage + perPage) rows.length ≤ rows.length :=
      Nat.min_le_right _ _
    omega
  · rw [hfrom]
    omega

/-- C10 (witness): requesting page 2 of 10-per-page over 5 rows gives
`from = 11`, `to = 5`, and an empty data array. -/
theorem claim_C10_from_unclamped_witness :
    1 ≤ 2 ∧ 0 < (exRows 5).length ∧ (exRows 5).length ≤ (2 - 1) * 10 ∧
    (paginate (BuilderState.init "t") (exRows 5) 10 2).fromIdx = 11 ∧
    (paginate (BuilderState.init "t") (exRows 5) 10 2).toIdx = 5 ∧
    (paginate (BuilderState.init "t") (exRows 5) 10 2).data = [] := by
  have hlen : (exRows 5).length = 5 := by
    unfold exRows
    rw [List.length_map, List.length_range]
  have h := claim_C10_from_unclamped (BuilderState.init "t") (exRows 5) 10 2
    (by norm_num) (by rw [hlen]; norm_num)
  obtain ⟨hf, ht, hrest⟩ := h
  obtain ⟨hd, _, _⟩ := hrest (by rw [hlen]; norm_num)
  refine ⟨by norm_num, by rw [hlen]; norm_num, by rw [hlen]; norm_num, ?_, ?_, hd⟩
  · rw [hf]
  · rw [ht, hlen]
    decide

/-- `(page - 1) * size + size = page * size` for `page ≥ 1`. -/
theorem pred_mul_add (page size : Nat) (hq : 1 ≤ page) :
    (page - 1) * size + size = page * size := by
  obtain ⟨p, rfl⟩ := Nat.exists_eq_add_of_le hq
  have h1 : 1 + p - 1 = p := Nat.add_sub_cancel_left 1 p
  rw [h1]
  ring

/-- `chunkSpec` on an empty row set yields no pages. -/
theorem chunkSpec_nil (size : Nat) (cb : List Ensemble → Bool) :
    chunkSpec size [] cb = [] := by
  cases size <;> rw [chunkSpec]

/-- One unfolding of `chunkSpec` on a non-empty row set. -/
theorem chunkSpec_cons_of_pos (k : Nat) (rows : List Row)
    (cb : List Ensemble → Bool) (h : 0 < rows.length) :
    chunkSpec (k + 1) rows cb =
      hydrate (rows.take (k + 1)) ::
        (if cb (hydrate (rows.take (k + 1))) then
          chunkSpec (k + 1) (rows.drop (k + 1)) cb
        else []) := by
  cases rows with
  | nil => simp at h
  | cons r rs => rw [chunkSpec]

/-- The fueled source loop agrees with the take/drop recursion, page by
page. -/
theorem chunkGo_eq_chunkSpec (size : Nat) (s : BuilderState) (rows : List Row)
    (cb : List Ensemble → Bool) (hs : 1 ≤ size) :
    ∀ (fuel page : Nat), 1 ≤ page →
      (rows.drop ((page - 1) * size)).length < fuel →
      chunkGo size s rows cb fuel page =
        chunkSpec size (rows.drop ((page - 1) * size)) cb := by
  intro fuel
  induction fuel with
  | zero =>
    intro page _ hlt
    exact absurd hlt (Nat.not_lt_zero _)
  | succ fuel ih =>
    intro page hpage hlt
    obtain ⟨k, rfl⟩ : ∃ k, size = k + 1 := ⟨size - 1, by omega⟩
    rw [chunkGo]
    have hres : ensembleGet ((s.clone.offset ((page - 1) * (k + 1))).limit (k + 1)) rows =
        hydrate ((rows.drop ((page - 1) * (k + 1))).take (k + 1)) := rfl
    rw [hres]
    cases hrem : rows.drop ((page - 1) * (k + 1)) with
    | nil =>
      rw [chunkSpec_nil]
      simp [hydrate]
    | cons r rs =>
      have hlen0 : (hydrate (((r :: rs) : List Row).take (k + 1))).length ≠ 0 := by
        simp [hydrate]
      rw [if_neg hlen0]
      have hdrop : ((r :: rs) : List Row).drop (k + 1) = rows.drop (page * (k + 1)) := by
        rw [← hrem, List.drop_drop, pred_mul_add page (k + 1) hpage]
      have hnext : chunkGo (k + 1) s rows cb fuel (page + 1) =
          chunkSpec (k + 1) (rows.drop ((page + 1 - 1) * (k + 1))) cb := by
        apply ih (page + 1) (by omega)
        have hA : rows.length - (page - 1) * (k + 1) = rs.length + 1 := by
          have hh := congrArg List.length hrem
          simpa using hh
        have hmul := pred_mul_add page (k + 1) hpage
        have h1 : page + 1 - 1 = page := rfl
        rw [h1]
        simp only [List.length_drop] at hlt ⊢
        omega
      rw [chunkSpec_cons_of_pos k (r :: rs) cb (by simp)]
      by_cases hcb : cb (hydrate (((r :: rs) : List Row).take (k + 1)))
      · rw [if_pos hcb, if_pos hcb, hnext, hdrop]
        have h1 : page + 1 - 1 = page := rfl
        rw [h1]
      · rw [if_neg hcb, if_neg hcb]

/-- One unfolding of `chunkSpec` for any positive chunk size. -/
theorem chunkSpec_pos_unfold (size : Nat) (hs : 1 ≤ size) (rows : List Row)
    (cb : List Ensemble → Bool) (h : 0 < rows.length) :
    chunkSpec size rows cb =
      hydrate (rows.take size) ::
        (if cb (hydrate (rows.take size)) then
          chunkSpec size (rows.drop size) cb
        else []) := by
  obtain ⟨k, rfl⟩ : ∃ k, size = k + 1 := ⟨size - 1, by omega⟩
  exact chunkSpec_cons_of_pos k rows cb h

/-- Every page produced by the chunk recursion is non-empty: the callback is
invoked only on non-empty pages. -/
theorem chunkSpec_pages_nonempty (size : Nat) (hs : 1 ≤ size) :
    ∀ (n : Nat) (rows : List Row) (cb : List Ensemble → Bool),
      rows.length ≤ n → ∀ pg ∈ chunkSpec size rows cb, pg ≠ [] := by
  intro n
  induction n with
  | zero =>
    intro rows cb hn pg hpg
    have : rows = [] := List.eq_nil_of_length_eq_zero (by omega)
    rw [this, chunkSpec_nil] at hpg
    simp at hpg
  | succ n ih =>
    intro rows cb hn pg hpg
    cases hrows : rows with
    | nil =>
      rw [hrows, chunkSpec_nil] at hpg
      simp at hpg
    | cons r rs =>
      rw [hrows, chunkSpec_pos_unfold size hs (r :: rs) cb (by simp)] at hpg
      rcases List.mem_cons.mp hpg with hhead | htail
      · rw [hhead]
        simp [hydrate]
        omega
      · by_cases hcb : cb (hydrate (((r :: rs) : List Row).take size))
        · rw [if_pos hcb] at htail
          apply ih (((r :: rs) : List Row).drop size) cb _ pg htail
          simp only [List.length_drop]
          rw [hrows] at hn
          simp at hn ⊢
          omega
        · rw [if_neg hcb] at htail
          simp at htail

/-- Over exactly 12 rows with chunk size 5, the recursion produces pages of
sizes 5, 5 and 2. -/
theorem chunkSpec_twelve (rows : List Row) (h : rows.length = 12) :
    (chunkSpec 5 rows (fun _ => true)).map List.length = [5, 5, 2] := by
  have h5 : (1 : Nat) ≤ 5 := by omega
  rw [chunkSpec_pos_unfold 5 h5 rows _ (by omega), if_pos rfl]
  have h1 : (rows.drop 5).length = 7 := by
    simp [h]
  rw [chunkSpec_pos_unfold 5 h5 (rows.drop 5) _ (by omega), if_pos rfl]
  have h2 : ((rows.drop 5).drop 5).length = 2 := by
    simp [h]
  rw [chunkSpec_pos_unfold 5 h5 ((rows.drop 5).drop 5) _ (by omega), if_pos rfl]
  have h3 : (((rows.drop 5).drop 5).drop 5) = [] := by
    apply List.eq_nil_of_length_eq_zero
    simp [h]
  rw [h3, chunkSpec_nil]
  simp [hydrate, h, h1, h2]

/-- C3: `chunk(size, cb)` fetches pages from fresh clones with
`offset((page-1)*size).limit(size)` for `page = 1, 2, …`, invoking the
callback once per non-empty hydrated page and stopping exactly when a page is
empty or the callback returns `false` — equivalently, it produces the pages of
the take/drop recursion `chunkSpec`; over exactly 12 rows with size 5 the
callback is invoked three times with page sizes 5, 5 and 2. -/
theorem claim_C3_chunk (size : Nat) (s : BuilderState) (rows : List Row)
    (cb : List Ensemble → Bool) (hs : 1 ≤ size) :
    chunk size s rows cb = chunkSpec size rows cb ∧
    (∀ pg ∈ chunk size s rows cb, pg ≠ []) ∧
    (size = 5 → rows.length = 12 →
      (chunk size s rows (fun _ => true)).map List.length = [5, 5, 2] ∧
      (chunk size s rows (fun _ => true)).length = 3) := by
  have heq : ∀ cb' : List Ensemble → Bool,
      chunk size s rows cb' = chunkSpec size rows cb' := by
    intro cb'
    unfold chunk
    rw [chunkGo_eq_chunkSpec size s rows cb' hs (rows.length + 1) 1 (by omega)
      (by simp)]
    norm_num
  refine ⟨heq cb, ?_, ?_⟩
  · rw [heq cb]
    exact chunkSpec_pages_nonempty size hs rows.length rows cb le_rfl
  · intro hsz hlen
    subst hsz
    have h12 := chunkSpec_twelve rows hlen
    rw [heq (fun _ => true)]
    refine ⟨h12, ?_⟩
    have := congrArg List.length h12
    simpa using this

/-- C3 (witness): over the 12 example rows with size 5 and a callback that
always continues, the callback sees pages of sizes 5, 5 and 2. -/
theorem claim_C3_chunk_witness :
    1 ≤ 5 ∧ (exRows 12).length = 12 ∧
    (chunk 5 (BuilderState.init "t") (exRows 12) (fun _ => true)).map
      List.length = [5, 5, 2] := by
  have hlen : (exRows 12).length = 12 := by
    unfold exRows
    rw [List.length_map, List.length_range]
  refine ⟨by omega, hlen, ?_⟩
  exact ((claim_C3_chunk 5 (BuilderState.init "t") (exRows 12)
    (fun _ => true) (by omega)).2.2 rfl hlen).1

/-- Filter-characterised stability of the sort underlying `sortBy`: the
equal-key elements (any class on which the order ties) appear in the output
exactly as they appear in the input. -/
theorem mergeSort_filter_stable {α : Type} (le : α → α → Bool)
    (htrans : ∀ a b d, le a b → le b d → le a d)
    (htotal : ∀ a b, le a b || le b a)
    (l : List α) (p : α → Bool)
    (hp : ∀ a b, p a → p b → le a b) :
    (l.mergeSort le).filter p = l.filter p := by
  have hsub : List.Sublist (l.filter p) l := List.filter_sublist l
  have hpair : (l.filter p).Pairwise (fun a b => le a b) :=
    List.pairwise_of_forall_mem_list (fun a ha b hb =>
      hp a b (List.of_mem_filter ha) (List.of_mem_filter hb))
  have h1 : List.Sublist (l.filter p) (l.mergeSort le) :=
    List.sublist_mergeSort htrans htotal hpair hsub
  have h2 : (l.filter p).filter p = l.filter p :=
    List.filter_eq_self.mpr (fun a ha => List.of_mem_filter ha)
  have h3 : List.Sublist (l.filter p) ((l.mergeSort le).filter p) := by
    rw [← h2]
    exact List.Sublist.filter p h1
  have h4 : ((l.mergeSort le).filter p).length = (l.filter p).length :=
    (List.Perm.filter p (List.mergeSort_perm l le)).length_eq
  exact (h3.eq_of_length h4.symm).symm

/-- The key form of `sortBy` is the stable sort by `k a ≤ k b`: the source's
three-way comparator `aVal < bVal ? -1 : aVal > bVal ? 1 : 0` places `a`
before `b` exactly when `k a ≤ k b`. -/
theorem sortBy_eq_mergeSort {α K : Type} [LinearOrder K] (k : α → K)
    (l : List α) :
    EnsembleCollection.sortBy k l =
      l.mergeSort (fun a b => decide (k a ≤ k b)) := by
  unfold EnsembleCollection.sortBy sortByCmp
  congr 1
  funext a b
  rw [decide_eq_decide]
  show (if k a < k b then (-1 : Int) else if k b < k a then 1 else 0) ≤ 0 ↔
    k a ≤ k b
  split_ifs with h1 h2
  · simp [h1.le]
  · simp [not_le.mpr h2]
  · have hab : k a ≤ k b := not_lt.mp h2
    simp [hab]

/-- The descending form is the stable sort by `k b ≤ k a`. -/
theorem sortByDesc_eq_mergeSort {α K : Type} [LinearOrder K] (k : α → K)
    (l : List α) :
    EnsembleCollection.sortByDesc k l =
      l.mergeSort (fun a b => decide (k b ≤ k a)) := by
  unfold EnsembleCollection.sortByDesc sortByCmp
  congr 1
  funext a b
  rw [decide_eq_decide]
  show (if k a < k b then (1 : Int) else if k b < k a then -1 else 0) ≤ 0 ↔
    k b ≤ k a
  split_ifs with h1 h2
  · simp [not_le.mpr h1]
  · simp [h2.le]
  · have hab : k b ≤ k a := not_lt.mp h1
    simp [hab]

/-- C6: `sortBy` (by key or three-way comparator) and `sortByDesc` return the
collection sorted accordingly, and the sort is stable: items with equal sort
keys retain their relative input order (stated as preservation of the
equal-key subsequences; for the comparator form, as preservation of tied
pairs under a transitive, total comparator). -/
theorem claim_C6_sort_stable {α K : Type} [LinearOrder K] (k : α → K)
    (c : α → α → Int) (l : List α)
    (htrans : ∀ a b d, c a b ≤ 0 → c b d ≤ 0 → c a d ≤ 0)
    (htotal : ∀ a b, c a b ≤ 0 ∨ c b a ≤ 0) :
    List.Perm (EnsembleCollection.sortBy k l) l ∧
    List.Pairwise (fun a b => k a ≤ k b) (EnsembleCollection.sortBy k l) ∧
    (∀ v : K,
      (EnsembleCollection.sortBy k l).filter (fun x => decide (k x = v)) =
        l.filter (fun x => decide (k x = v))) ∧
    List.Perm (EnsembleCollection.sortByDesc k l) l ∧
    List.Pairwise (fun a b => k b ≤ k a) (EnsembleCollection.sortByDesc k l) ∧
    (∀ v : K,
      (EnsembleCollection.sortByDesc k l).filter (fun x => decide (k x = v)) =
        l.filter (fun x => decide (k x = v))) ∧
    List.Perm (sortByCmp c l) l ∧
    List.Pairwise (fun a b => c a b ≤ 0) (sortByCmp c l) ∧
    (∀ a b : α, List.Sublist [a, b] l → c a b = 0 → c b a = 0 →
      List.Sublist [a, b] (sortByCmp c l)) := by
  have ta : ∀ x y z : α, decide (k x ≤ k y) = true →
      decide (k y ≤ k z) = true → decide (k x ≤ k z) = true := by
    intro x y z h1 h2
    simp only [decide_eq_true_eq] at h1 h2 ⊢
    exact le_trans h1 h2
  have tb : ∀ x y : α, (decide (k x ≤ k y) || decide (k y ≤ k x)) = true := by
    intro x y
    rcases le_total (k x) (k y) with h | h <;> simp [h]
  have tda : ∀ x y z : α, decide (k y ≤ k x) = true →
      decide (k z ≤ k y) = true → decide (k z ≤ k x) = true := by
    intro x y z h1 h2
    simp only [decide_eq_true_eq] at h1 h2 ⊢
    exact le_trans h2 h1
  have tdb : ∀ x y : α, (decide (k y ≤ k x) || decide (k x ≤ k y)) = true := by
    intro x y
    rcases le_total (k x) (k y) with h | h <;> simp [h]
  have tca : ∀ x y z : α, decide (c x y ≤ 0) = true →
      decide (c y z ≤ 0) = true → decide (c x z ≤ 0) = true := by
    intro x y z h1 h2
    simp only [decide_eq_true_eq] at h1 h2 ⊢
    exact htrans x y z h1 h2
  have tcb : ∀ x y : α, (decide (c x y ≤ 0) || decide (c y x ≤ 0)) = true := by
    intro x y
    rcases htotal x y with h | h <;> simp [h]
  refine ⟨?_, ?_, ?_, ?_, ?_, ?_, ?_, ?_, ?_⟩
  · rw [sortBy_eq_mergeSort]
    exact List.mergeSort_perm l _
  · rw [sortBy_eq_mergeSort]
    exact (List.sorted_mergeSort ta tb l).imp (fun h => of_decide_eq_true h)
  · intro v
    rw [sortBy_eq_mergeSort]
    apply mergeSort_filter_stable _ ta tb
    intro a b hpa hpb
    simp only [decide_eq_true_eq] at hpa hpb ⊢
    rw [hpa, hpb]
  · rw [sortByDesc_eq_mergeSort]
    exact List.mergeSort_perm l _
  · rw [sortByDesc_eq_mergeSort]
    exact (List.sorted_mergeSort tda tdb l).imp (fun h => of_decide_eq_true h)
  · intro v
    rw [sortByDesc_eq_mergeSort]
    apply mergeSort_filter_stable _ tda tdb
    intro a b hpa hpb
    simp only [decide_eq_true_eq] at hpa hpb ⊢
    rw [hpa, hpb]
  · exact List.mergeSort_perm l _
  · exact (List.sorted_mergeSort tca tcb l).imp (fun h => of_decide_eq_true h)
  · intro a b hsub h0 h0'
    apply List.sublist_mergeSort tca tcb _ hsub
    rw [List.pairwise_cons]
    refine ⟨?_, List.pairwise_singleton _ _⟩
    intro x hx
    rw [List.mem_singleton] at hx
    subst hx
    simp only [decide_eq_true_eq]
    omega

/-- C6 (witness): stability evaluated on a concrete list of pairs keyed by the
first component: the two key-2 items keep their input order `(2,1), (2,2)`
after sorting. The always-tying comparator `fun _ _ => 0` discharges the
comparator hypotheses. -/
theorem claim_C6_sort_stable_witness :
    (EnsembleCollection.sortBy (fun p : Nat × Nat => p.1)
        [(2, 1), (1, 1), (2, 2), (1, 2)]).filter
      (fun x => decide (x.1 = 2)) = [(2, 1), (2, 2)] := by
  have h := (claim_C6_sort_stable (fun p : Nat × Nat => p.1)
    (fun _ _ => 0) [(2, 1), (1, 1), (2, 2), (1, 2)]
    (fun _ _ _ h _ => h) (fun _ _ => Or.inl le_rfl)).2.2.1 2
  rw [h]
  decide

/-- Reading a reference other than the pushed one is unaffected. -/
theorem getRef_pushRef_ne (σ : Store) (i j : Nat) (x : HVal) (h : i ≠ j) :
    getRef (pushRef σ i x) j = getRef σ j := by
  unfold pushRef setRef getRef
  rw [List.getElem?_set_ne h]

/-- Reading an allocated reference is unaffected by appending new arrays. -/
theorem getRef_append_left (σ : Store) (L : List (List HVal)) (j : Nat)
    (h : j < σ.length) : getRef (σ ++ L) j = getRef σ j := by
  unfold getRef
  rw [List.getElem?_append_left h]

/-- Reading past the old end addresses the appended arrays. -/
theorem getRef_append_right (σ : Store) (L : List (List HVal)) (kk : Nat) :
    getRef (σ ++ L) (σ.length + kk) = getRef L kk := by
  unfold getRef
  rw [List.getElem?_append_right (Nat.le_add_right _ _), Nat.add_sub_cancel_left]

/-- A whole builder's array state is unaffected by a push on a reference it
does not hold. -/
theorem readAll_pushRef_ne (bb : BRef) (σ0 : Store) (X : Nat) (x : HVal)
    (h : ∀ r ∈ bb.refs, X ≠ r) :
    readAll bb (pushRef σ0 X x) = readAll bb σ0 := by
  unfold readAll
  apply List.map_congr_left
  intro r hr
  exact getRef_pushRef_ne σ0 X r x (h r hr)

/-- A whole builder's array state is unaffected by fresh allocations. -/
theorem readAll_append (bb : BRef) (σ0 : Store) (L : List (List HVal))
    (h : ∀ r ∈ bb.refs, r < σ0.length) :
    readAll bb (σ0 ++ L) = readAll bb σ0 := by
  unfold readAll
  apply List.map_congr_left
  intro r hr
  exact getRef_append_left σ0 L r (h r hr)

/-- C4: `clone()` copies every clause sequence, the bindings list and the
eager-load registrations into freshly allocated arrays (disjoint from the
original's), and copies the scalar fields by value; consequently any fluent
mutation applied to either builder leaves the other builder's observable
array state unchanged — the copy is structural, with no shared mutable
state. -/
theorem claim_C4_clone_no_aliasing (b : BRef) (σ : Store) (hwf : wfRef b σ) :
    readAll (cloneRef b σ).1 (cloneRef b σ).2 = readAll b σ ∧
    (cloneRef b σ).1.distinct = b.distinct ∧
    (cloneRef b σ).1.table = b.table ∧
    (cloneRef b σ).1.limit = b.limit ∧
    (cloneRef b σ).1.offset = b.offset ∧
    readAll b (cloneRef b σ).2 = readAll b σ ∧
    (∀ r ∈ b.refs, ∀ r' ∈ (cloneRef b σ).1.refs, r ≠ r') ∧
    (∀ op : MOp,
      readAll b (applyM op (cloneRef b σ).1 (cloneRef b σ).2).2 = readAll b σ ∧
      readAll (cloneRef b σ).1 (applyM op b (cloneRef b σ).2).2 =
        readAll (cloneRef b σ).1 (cloneRef b σ).2) := by
  have hb : ∀ r ∈ b.refs, r < σ.length := hwf
  have hc : (cloneRef b σ).1 =
      ⟨σ.length, σ.length + 1, σ.length + 2, σ.length + 3, σ.length + 4,
       σ.length + 5, σ.length + 6, σ.length + 7,
       b.distinct, b.table, b.limit, b.offset⟩ := rfl
  have hσ2 : (cloneRef b σ).2 =
      σ ++ [getRef σ b.columns, getRef σ b.wheres, getRef σ b.joins,
            getRef σ b.orders, getRef σ b.groups, getRef σ b.havings,
            getRef σ b.bindings, getRef σ b.eager] := rfl
  set L : List (List HVal) :=
    [getRef σ b.columns, getRef σ b.wheres, getRef σ b.joins,
     getRef σ b.orders, getRef σ b.groups, getRef σ b.havings,
     getRef σ b.bindings, getRef σ b.eager] with hL
  have comp : ∀ kk : Nat, getRef (σ ++ L) (σ.length + kk) = getRef L kk :=
    getRef_append_right σ L
  have e0 : getRef (σ ++ L) σ.length = getRef L 0 := by
    have h := comp 0
    simpa using h
  have hbase : readAll b (σ ++ L) = readAll b σ := readAll_append b σ L hb
  have hcref : (cloneRef b σ).1.refs =
      [σ.length, σ.length + 1, σ.length + 2, σ.length + 3, σ.length + 4,
       σ.length + 5, σ.length + 6, σ.length + 7] := rfl
  have conj1 : readAll (cloneRef b σ).1 (cloneRef b σ).2 = readAll b σ := by
    rw [hc, hσ2]
    simp only [readAll, BRef.refs, List.map]
    rw [e0, comp 1, comp 2, comp 3, comp 4, comp 5, comp 6, comp 7]
    rfl
  have hdisj : ∀ r ∈ b.refs, ∀ r' ∈ (cloneRef b σ).1.refs, r ≠ r' := by
    intro r hr r' hr'
    have h1 : r < σ.length := hb r hr
    rw [hcref] at hr'
    simp only [List.mem_cons, List.not_mem_nil, or_false] at hr'
    rcases hr' with h | h | h | h | h | h | h | h <;> omega
  have hA : ∀ (X : Nat) (x : HVal), σ.length ≤ X →
      readAll b (pushRef (σ ++ L) X x) = readAll b σ := by
    intro X x hX
    rw [readAll_pushRef_ne b (σ ++ L) X x
      (fun r hr => by have := hb r hr; omega), hbase]
  have hB : ∀ (X : Nat) (x : HVal), X < σ.length →
      readAll (cloneRef b σ).1 (pushRef (σ ++ L) X x) =
        readAll (cloneRef b σ).1 (σ ++ L) := by
    intro X x hX
    apply readAll_pushRef_ne
    intro r hr
    rw [hcref] at hr
    simp only [List.mem_cons, List.not_mem_nil, or_false] at hr
    rcases hr with h | h | h | h | h | h | h | h <;> omega
  refine ⟨conj1, rfl, rfl, rfl, rfl, by rw [hσ2]; exact hbase, hdisj, ?_⟩
  intro op
  constructor
  · cases op <;> simp only [applyM, hc, hσ2] <;>
      first
        | exact hbase
        | (apply hA _ _; omega)
  · cases op <;> simp only [applyM, hc, hσ2] <;>
      first
        | rfl
        | (apply hB _ _; exact hb _ (by simp [BRef.refs]))

/-- C4 (witness): the no-aliasing theorem applied to the example builder that
owns eight freshly allocated arrays, mutated with a `where` push. -/
theorem claim_C4_clone_no_aliasing_witness :
    wfRef exBRef exStore ∧
    readAll (cloneRef exBRef exStore).1 (cloneRef exBRef exStore).2 =
      readAll exBRef exStore ∧
    readAll exBRef
      (applyM (MOp.whereAdd (.wnull "c" false false))
        (cloneRef exBRef exStore).1 (cloneRef exBRef exStore).2).2 =
      readAll exBRef exStore ∧
    readAll (cloneRef exBRef exStore).1
      (applyM (MOp.whereAdd (.wnull "c" false false))
        exBRef (cloneRef exBRef exStore).2).2 =
      readAll (cloneRef exBRef exStore).1 (cloneRef exBRef exStore).2 :=
  ⟨by decide,
   (claim_C4_clone_no_aliasing exBRef exStore (by decide)).1,
   ((claim_C4_clone_no_aliasing exBRef exStore (by decide)).2.2.2.2.2.2.2
     (MOp.whereAdd (.wnull "c" false false))).1,
   ((claim_C4_clone_no_aliasing exBRef exStore (by decide)).2.2.2.2.2.2.2
     (MOp.whereAdd (.wnull "c" false false))).2⟩

/-- `?`-counting distributes over string concatenation. -/
theorem countQ_append (a b : String) :
    countQ (a ++ b) = countQ a + countQ b := by
  unfold countQ
  show List.count '?' (a ++ b).data = List.count '?' a.data + List.count '?' b.data
  rw [String.data_append, List.count_append]

/-- The placeholder values of a concatenation, in order. -/
theorem holes_append (a b : List Tok) :
    holes (a ++ b) = holes a ++ holes b := by
  unfold holes
  rw [List.filterMap_append]

/-- Cleanliness of a concatenation of token streams. -/
theorem toksClean_append (a b : List Tok) :
    toksClean (a ++ b) = (toksClean a && toksClean b) := by
  unfold toksClean
  rw [List.all_append]

/-- Rendering a clean token stream yields exactly one `?` per placeholder:
the placeholder count of the SQL text is the number of holes. -/
theorem countQ_render (ts : List Tok) (h : toksClean ts = true) :
    countQ (render ts) = (holes ts).length := by
  induction ts with
  | nil =>
    show countQ "" = _
    rfl
  | cons t ts ih =>
    rw [toksClean, List.all_cons, Bool.and_eq_true] at h
    obtain ⟨ht, hts⟩ := h
    cases t with
    | sql s =>
      show countQ (s ++ render ts) = _
      rw [countQ_append]
      have hs : countQ s = 0 := by
        simpa [Tok.isClean] using ht
      rw [hs, ih hts]
      simp [holes]
    | hole v =>
      show countQ ("?" ++ render ts) = _
      rw [countQ_append, ih hts]
      have h1 : countQ "?" = 1 := rfl
      rw [h1]
      simp [holes]
      omega

/-- A raw fragment carrying exactly one binding per `?` tokenises to a clean
stream whose holes are its bindings, verbatim and in order. -/
theorem rawToks_spec :
    ∀ (cs : List Char) (vs : List Value), cs.count '?' = vs.length →
      holes (rawToks cs vs) = vs ∧ toksClean (rawToks cs vs) = true := by
  intro cs
  induction cs with
  | nil =>
    intro vs h
    cases vs with
    | nil => exact ⟨rfl, rfl⟩
    | cons v vs' => simp at h
  | cons c cs ih =>
    intro vs h
    by_cases hc : c = '?'
    · subst hc
      rw [List.count_cons_self] at h
      cases vs with
      | nil => simp at h
      | cons v vs' =>
        have hrw : rawToks ('?' :: cs) (v :: vs') = .hole v :: rawToks cs vs' := rfl
        rw [hrw]
        have h' : cs.count '?' = vs'.length := by
          simpa using h
        obtain ⟨ih1, ih2⟩ := ih vs' h'
        constructor
        · have hh : holes (Tok.hole v :: rawToks cs vs') =
              v :: holes (rawToks cs vs') := rfl
          rw [hh, ih1]
        · have hh : toksClean (Tok.hole v :: rawToks cs vs') =
              (Tok.isClean (.hole v) && toksClean (rawToks cs vs')) := rfl
          rw [hh, ih2]
          rfl
    · have hrw : rawToks (c :: cs) vs = .sql (String.singleton c) :: rawToks cs vs := by
        cases vs <;> simp [rawToks, hc]
      rw [hrw]
      have h' : cs.count '?' = vs.length := by
        rwa [List.count_cons_of_ne (Ne.symm hc)] at h
      obtain ⟨ih1, ih2⟩ := ih vs h'
      constructor
      · have hh : holes (Tok.sql (String.singleton c) :: rawToks cs vs) =
            holes (rawToks cs vs) := rfl
        rw [hh, ih1]
      · have hh : toksClean (Tok.sql (String.singleton c) :: rawToks cs vs) =
            (Tok.isClean (.sql (String.singleton c)) && toksClean (rawToks cs vs)) := rfl
        rw [hh, ih2]
        have hclean : countQ (String.singleton c) = 0 := by
          show List.count '?' [c] = 0
          simp [List.count_cons, Ne.symm hc]
        simp [Tok.isClean, hclean]

/-- An `in (…)` placeholder list is clean and carries its values in order. -/
theorem placeListToks_spec :
    ∀ vs : List Value,
      holes (placeListToks vs) = vs ∧ toksClean (placeListToks vs) = true := by
  intro vs
  induction vs with
  | nil => exact ⟨rfl, rfl⟩
  | cons v vs ih =>
    cases vs with
    | nil => exact ⟨rfl, rfl⟩
    | cons v' vs' =>
      have hrw : placeListToks (v :: v' :: vs') =
          .hole v :: .sql ", " :: placeListToks (v' :: vs') := rfl
      obtain ⟨ih1, ih2⟩ := ih
      constructor
      · have hh : holes (Tok.hole v :: Tok.sql ", " :: placeListToks (v' :: vs')) =
            v :: holes (placeListToks (v' :: vs')) := rfl
        rw [hrw, hh, ih1]
      · have hh : toksClean (Tok.hole v :: Tok.sql ", " :: placeListToks (v' :: vs')) =
            (Tok.isClean (.hole v) &&
              (Tok.isClean (.sql ", ") && toksClean (placeListToks (v' :: vs')))) := rfl
        rw [hrw, hh, ih2]
        rfl

/-- Each well-formed where clause tokenises to a clean stream whose holes are
exactly its bindable values, in order. -/
theorem whereCToks_spec (w : WhereC) (hwf : wfWhereC w = true) :
    holes (whereCToks w) = whereCBindings w ∧ toksClean (whereCToks w) = true := by
  cases w with
  | basic col op v bb =>
    simp only [wfWhereC, Bool.and_eq_true, decide_eq_true_eq] at hwf
    obtain ⟨h1, h2⟩ := hwf
    refine ⟨rfl, ?_⟩
    show (Tok.isClean (.sql (col ++ " " ++ op ++ " ")) && true) = true
    simp [Tok.isClean, countQ_append, h1, h2]
    rfl
  | win col vs neg bb =>
    simp only [wfWhereC, decide_eq_true_eq] at hwf
    show holes (whereCToks (.win col vs neg bb)) = vs ∧ _
    by_cases hvs : vs.isEmpty
    · have hnil : vs = [] := by
        cases vs
        · rfl
        · simp at hvs
      subst hnil
      exact ⟨rfl, by cases neg <;> rfl⟩
    · have hrw : whereCToks (.win col vs neg bb) =
          [.sql (col ++ (if neg then " not in (" else " in ("))] ++
            placeListToks vs ++ [.sql ")"] := by
        simp [whereCToks, hvs]
      obtain ⟨p1, p2⟩ := placeListToks_spec vs
      rw [hrw]
      constructor
      · rw [holes_append, holes_append, p1]
        simp [holes]
      · rw [toksClean_append, toksClean_append, p2]
        have hcol : countQ (col ++ (if neg then " not in (" else " in (")) = 0 := by
          rw [countQ_append, hwf]
          cases neg <;> rfl
        simp [toksClean, Tok.isClean, hcol]
        rfl
  | wnull col neg bb =>
    simp only [wfWhereC, decide_eq_true_eq] at hwf
    refine ⟨by cases neg <;> rfl, ?_⟩
    show (Tok.isClean (.sql (col ++ (if neg then " is not null" else " is null"))) && true) = true
    have : countQ (col ++ (if neg then " is not null" else " is null")) = 0 := by
      rw [countQ_append, hwf]
      cases neg <;> rfl
    simp [Tok.isClean, this]
  | between col lo hi bb =>
    simp only [wfWhereC, decide_eq_true_eq] at hwf
    refine ⟨rfl, ?_⟩
    show (Tok.isClean (.sql (col ++ " between ")) &&
      (true && (Tok.isClean (.sql " and ") && (true && true)))) = true
    have : countQ (col ++ " between ") = 0 := by
      rw [countQ_append, hwf]
      rfl
    simp [Tok.isClean, this]
    rfl
  | wraw sql bs bb =>
    simp only [wfWhereC, decide_eq_true_eq] at hwf
    exact rawToks_spec sql.toList bs hwf

/-- Each well-formed having clause tokenises cleanly with its value as the
single hole. -/
theorem havingToks_spec (h : HavingClause) (hwf : wfHaving h = true) :
    holes (havingToks h) = [h.value] ∧ toksClean (havingToks h) = true := by
  simp only [wfHaving, Bool.and_eq_true, decide_eq_true_eq] at hwf
  obtain ⟨h1, h2⟩ := hwf
  refine ⟨rfl, ?_⟩
  show (Tok.isClean (.sql (h.column ++ " " ++ h.operator ++ " ")) && true) = true
  simp [Tok.isClean, countQ_append, h1, h2]
  rfl

/-- A well-formed join clause tokenises cleanly and carries no bindings. -/
theorem joinToks_spec (j : JoinClause) (hwf : wfJoin j = true) :
    holes (joinToks j) = [] ∧ toksClean (joinToks j) = true := by
  simp only [wfJoin, Bool.and_eq_true, decide_eq_true_eq] at hwf
  obtain ⟨⟨⟨⟨h1, h2⟩, h3⟩, h4⟩, h5⟩ := hwf
  refine ⟨rfl, ?_⟩
  show (Tok.isClean (.sql _) && true) = true
  rw [Bool.and_true]
  simp only [Tok.isClean, decide_eq_true_eq]
  rw [countQ_append, countQ_append, countQ_append, countQ_append, countQ_append,
    countQ_append]
  have hop : countQ (match j.operator, j.second with
      | some op, some sec => " " ++ op ++ " " ++ sec
      | _, _ => "") = 0 := by
    rcases hO : j.operator with _ | op <;> rcases hS : j.second with _ | sec
    · rfl
    · rfl
    · rfl
    · have h4' : countQ op = 0 := by
        rw [hO] at h4
        simpa using h4
      have h5' : countQ sec = 0 := by
        rw [hS] at h5
        simpa using h5
      rw [countQ_append, countQ_append, countQ_append, h4', h5']
      rfl
  rw [h1, h2, h3, hop]
  rfl

/-- Tail of the `where` section: clean, with the clauses' values
concatenated in clause order. -/
theorem whereRestToks_spec :
    ∀ ws : List WhereC, ws.all wfWhereC = true →
      holes (whereRestToks ws) = (ws.map whereCBindings).flatten ∧
      toksClean (whereRestToks ws) = true := by
  intro ws
  induction ws with
  | nil => exact fun _ => ⟨rfl, rfl⟩
  | cons w ws ih =>
    intro h
    rw [List.all_cons, Bool.and_eq_true] at h
    obtain ⟨hw, hws⟩ := h
    obtain ⟨c1, c2⟩ := whereCToks_spec w hw
    obtain ⟨r1, r2⟩ := ih hws
    have hrw : whereRestToks (w :: ws) =
        [.sql (if w.conn then " or " else " and ")] ++ whereCToks w ++
          whereRestToks ws := rfl
    rw [hrw]
    constructor
    · rw [holes_append, holes_append, c1, r1]
      simp [holes]
    · rw [toksClean_append, toksClean_append, c2, r2]
      have : Tok.isClean (.sql (if w.conn then " or " else " and ")) = true := by
        cases hc : w.conn <;> rfl
      simp [toksClean, this]

/-- The `where` section: clean, with holes exactly the clause values in
clause order. -/
theorem whereSectionToks_spec :
    ∀ ws : List WhereC, ws.all wfWhereC = true →
      holes (whereSectionToks ws) = (ws.map whereCBindings).flatten ∧
      toksClean (whereSectionToks ws) = true := by
  intro ws h
  cases ws with
  | nil => exact ⟨rfl, rfl⟩
  | cons w ws =>
    rw [List.all_cons, Bool.and_eq_true] at h
    obtain ⟨hw, hws⟩ := h
    obtain ⟨c1, c2⟩ := whereCToks_spec w hw
    obtain ⟨r1, r2⟩ := whereRestToks_spec ws hws
    have hrw : whereSectionToks (w :: ws) =
        [.sql " where "] ++ whereCToks w ++ whereRestToks ws := rfl
    rw [hrw]
    constructor
    · rw [holes_append, holes_append, c1, r1]
      simp [holes]
    · rw [toksClean_append, toksClean_append, c2, r2]
      simp [toksClean]
      rfl

/-- Tail of the `having` section. -/
theorem havingRestToks_spec :
    ∀ hs : List HavingClause, hs.all wfHaving = true →
      holes (havingRestToks hs) = hs.map HavingClause.value ∧
      toksClean (havingRestToks hs) = true := by
  intro hs
  induction hs with
  | nil => exact fun _ => ⟨rfl, rfl⟩
  | cons hcl hs ih =>
    intro h
    rw [List.all_cons, Bool.and_eq_true] at h
    obtain ⟨hw, hws⟩ := h
    obtain ⟨c1, c2⟩ := havingToks_spec hcl hw
    obtain ⟨r1, r2⟩ := ih hws
    have hrw : havingRestToks (hcl :: hs) =
        [.sql " and "] ++ havingToks hcl ++ havingRestToks hs := rfl
    rw [hrw]
    constructor
    · rw [holes_append, holes_append, c1, r1]
      rfl
    · rw [toksClean_append, toksClean_append, c2, r2]
      rfl

/-- The `having` section: clean, with holes exactly the having values in
clause order. -/
theorem havingSectionToks_spec :
    ∀ hs : List HavingClause, hs.all wfHaving = true →
      holes (havingSectionToks hs) = hs.map HavingClause.value ∧
      toksClean (havingSectionToks hs) = true := by
  intro hs h
  cases hs with
  | nil => exact ⟨rfl, rfl⟩
  | cons hcl hs =>
    rw [List.all_cons, Bool.and_eq_true] at h
    obtain ⟨hw, hws⟩ := h
    obtain ⟨c1, c2⟩ := havingToks_spec hcl hw
    obtain ⟨r1, r2⟩ := havingRestToks_spec hs hws
    have hrw : havingSectionToks (hcl :: hs) =
        [.sql " having "] ++ havingToks hcl ++ havingRestToks hs := rfl
    rw [hrw]
    constructor
    · rw [holes_append, holes_append, c1, r1]
      rfl
    · rw [toksClean_append, toksClean_append, c2, r2]
      rfl

/-- The join section: clean and binding-free. -/
theorem joinSectionToks_spec :
    ∀ js : List JoinClause, js.all wfJoin = true →
      holes (joinSectionToks js) = [] ∧
      toksClean (joinSectionToks js) = true := by
  intro js
  induction js with
  | nil => exact fun _ => ⟨rfl, rfl⟩
  | cons j js ih =>
    intro h
    rw [List.all_cons, Bool.and_eq_true] at h
    obtain ⟨hw, hws⟩ := h
    obtain ⟨c1, c2⟩ := joinToks_spec j hw
    obtain ⟨r1, r2⟩ := ih hws
    have hrw : joinSectionToks (j :: js) = joinToks j ++ joinSectionToks js := rfl
    rw [hrw]
    constructor
    · rw [holes_append, c1, r1]
      rfl
    · rw [toksClean_append, c2, r2]
      rfl

/-- Compilation of a builder state reachable by where/having/join calls:
the compile-time bindings list is select-raw values, then where values, then
having values; it aligns hole-for-hole with the placeholders of the token
stream; and the rendered SQL has exactly one `?` per binding. -/
theorem compile_spec (s : BuilderState)
    (hcols : s._columns = []) (hgroups : s._groups = [])
    (horders : s._orders = []) (hlimit : s._limit = none)
    (hoffset : s._offset = none) (hdist : s._distinct = false)
    (ht : countQ s._table = 0)
    (hw : s._wheres.all wfWhereC = true)
    (hh : s._havings.all wfHaving = true)
    (hj : s._joins.all wfJoin = true) :
    getBindings s = (s._wheres.map whereCBindings).flatten ++
      s._havings.map HavingClause.value ∧
    getBindings s = holes (compileTokens s) ∧
    countQ (toSql s) = (getBindings s).length := by
  obtain ⟨w1, w2⟩ := whereSectionToks_spec s._wheres hw
  obtain ⟨g1, g2⟩ := havingSectionToks_spec s._havings hh
  obtain ⟨j1, j2⟩ := joinSectionToks_spec s._joins hj
  have hbind : getBindings s = (s._wheres.map whereCBindings).flatten ++
      s._havings.map HavingClause.value := by
    unfold getBindings
    rw [hcols]
    rfl
  have htokeq : compileTokens s =
      [Tok.sql ("select " ++ "")] ++ [Tok.sql "*"] ++
        [Tok.sql (" from " ++ s._table)] ++
        joinSectionToks s._joins ++ whereSectionToks s._wheres ++ [] ++
        havingSectionToks s._havings ++ [] ++ [] ++ [] := by
    unfold compileTokens
    rw [hcols, hgroups, horders, hlimit, hoffset, hdist]
    rfl
  have c3 : toksClean [Tok.sql (" from " ++ s._table)] = true := by
    show (Tok.isClean (.sql (" from " ++ s._table)) && true) = true
    have hcq : countQ (" from " ++ s._table) = 0 := by
      rw [countQ_append, ht]
      decide
    simp [Tok.isClean, hcq]
  have hclean : toksClean (compileTokens s) = true := by
    rw [htokeq]
    simp only [toksClean_append, w2, g2, j2, c3]
    rfl
  have h2 : getBindings s = holes (compileTokens s) := by
    rw [hbind, htokeq]
    simp only [holes_append, w1, g1, j1]
    simp [holes]
  have h3 : countQ (toSql s) = (getBindings s).length := by
    unfold toSql
    rw [countQ_render _ hclean, ← h2]
  exact ⟨hbind, h2, h3⟩

/-- Configuration calls leave every builder field other than the wheres,
havings and joins untouched. -/
theorem applyQOp_fields (op : QOp) (s : BuilderState) :
    (applyQOp op s)._columns = s._columns ∧
    (applyQOp op s)._groups = s._groups ∧
    (applyQOp op s)._orders = s._orders ∧
    (applyQOp op s)._limit = s._limit ∧
    (applyQOp op s)._offset = s._offset ∧
    (applyQOp op s)._distinct = s._distinct ∧
    (applyQOp op s)._table = s._table := by
  cases op <;> exact ⟨rfl, rfl, rfl, rfl, rfl, rfl, rfl⟩

/-- A well-formed configuration call appends a well-formed clause. -/
theorem applyQOp_wf (op : QOp) (s : BuilderState) (hop : wfQOp op = true)
    (hw : s._wheres.all wfWhereC = true)
    (hh : s._havings.all wfHaving = true)
    (hj : s._joins.all wfJoin = true) :
    (applyQOp op s)._wheres.all wfWhereC = true ∧
    (applyQOp op s)._havings.all wfHaving = true ∧
    (applyQOp op s)._joins.all wfJoin = true := by
  cases op <;>
    simp_all [applyQOp, wfQOp, wfWhereC, wfHaving, wfJoin, List.all_append] <;>
    decide

/-- The builder state reached from `init` by a sequence of well-formed
where/having/join calls: untouched fields stay at their initial values and
every accumulated clause is well-formed. -/
theorem applyQOps_inv (ops : List QOp) :
    ∀ s : BuilderState, ops.all wfQOp = true →
      s._columns = [] → s._groups = [] → s._orders = [] →
      s._limit = none → s._offset = none → s._distinct = false →
      s._wheres.all wfWhereC = true → s._havings.all wfHaving = true →
      s._joins.all wfJoin = true →
      (applyQOps ops s)._columns = [] ∧ (applyQOps ops s)._groups = [] ∧
      (applyQOps ops s)._orders = [] ∧ (applyQOps ops s)._limit = none ∧
      (applyQOps ops s)._offset = none ∧ (applyQOps ops s)._distinct = false ∧
      (applyQOps ops s)._table = s._table ∧
      (applyQOps ops s)._wheres.all wfWhereC = true ∧
      (applyQOps ops s)._havings.all wfHaving = true ∧
      (applyQOps ops s)._joins.all wfJoin = true := by
  induction ops with
  | nil =>
    intro s _ h1 h2 h3 h4 h5 h6 h7 h8 h9
    exact ⟨h1, h2, h3, h4, h5, h6, rfl, h7, h8, h9⟩
  | cons op ops ih =>
    intro s hops h1 h2 h3 h4 h5 h6 h7 h8 h9
    rw [List.all_cons, Bool.and_eq_true] at hops
    obtain ⟨hop, hops'⟩ := hops
    obtain ⟨f1, f2, f3, f4, f5, f6, f7⟩ := applyQOp_fields op s
    obtain ⟨g1, g2, g3⟩ := applyQOp_wf op s hop h7 h8 h9
    have hstep : applyQOps (op :: ops) s = applyQOps ops (applyQOp op s) := rfl
    rw [hstep]
    have := ih (applyQOp op s) hops'
      (f1.trans h1) (f2.trans h2) (f3.trans h3) (f4.trans h4) (f5.trans h5)
      (f6.trans h6) g1 g2 g3
    obtain ⟨a1, a2, a3, a4, a5, a6, a7, a8, a9, a10⟩ := this
    exact ⟨a1, a2, a3, a4, a5, a6, a7.trans f7, a8, a9, a10⟩

/-- C1: for every sequence of well-formed where/having/join-on configuration
calls, the compiled bindings list has exactly one entry per positional `?` in
the `toSql` output, aligned hole-for-hole with the placeholders in the order
they appear left-to-right in the compiled string — where values first, having
values after all where values regardless of call order, joins binding-free. -/
theorem claim_C1_binding_alignment (t : String) (ops : List QOp)
    (ht : countQ t = 0) (hops : ops.all wfQOp = true) :
    getBindings (applyQOps ops (BuilderState.init t)) =
      holes (compileTokens (applyQOps ops (BuilderState.init t))) ∧
    countQ (toSql (applyQOps ops (BuilderState.init t))) =
      (getBindings (applyQOps ops (BuilderState.init t))).length ∧
    getBindings (applyQOps ops (BuilderState.init t)) =
      ((applyQOps ops (BuilderState.init t))._wheres.map whereCBindings).flatten ++
        (applyQOps ops (BuilderState.init t))._havings.map HavingClause.value := by
  obtain ⟨a1, a2, a3, a4, a5, a6, a7, a8, a9, a10⟩ :=
    applyQOps_inv ops (BuilderState.init t) hops rfl rfl rfl rfl rfl rfl rfl rfl rfl
  have htbl : countQ (applyQOps ops (BuilderState.init t))._table = 0 := by
    rw [a7]
    exact ht
  obtain ⟨c1, c2, c3⟩ := compile_spec (applyQOps ops (BuilderState.init t))
    a1 a2 a3 a4 a5 a6 htbl a8 a9 a10
  exact ⟨c2, c3, c1⟩

/-- C1 (witness): `having` called before `where` on a fresh builder bound to
table `t`: the compiled SQL places the where placeholder before the having
placeholder, and the bindings come out in that emission order — the where
value first — with one binding per `?`. -/
theorem claim_C1_binding_alignment_witness :
    countQ "t" = 0 ∧
    ([QOp.having "c" ">" (.str "hv"), QOp.whereB "a" "=" (.str "wv")].all
      wfQOp) = true ∧
    toSql (applyQOps [QOp.having "c" ">" (.str "hv"),
        QOp.whereB "a" "=" (.str "wv")] (BuilderState.init "t")) =
      "select * from t where a = ? having c > ?" ∧
    getBindings (applyQOps [QOp.having "c" ">" (.str "hv"),
        QOp.whereB "a" "=" (.str "wv")] (BuilderState.init "t")) =
      [.str "wv", .str "hv"] ∧
    countQ (toSql (applyQOps [QOp.having "c" ">" (.str "hv"),
        QOp.whereB "a" "=" (.str "wv")] (BuilderState.init "t"))) =
      (getBindings (applyQOps [QOp.having "c" ">" (.str "hv"),
        QOp.whereB "a" "=" (.str "wv")] (BuilderState.init "t"))).length :=
  ⟨by decide, by decide, by decide, by decide,
   (claim_C1_binding_alignment "t"
     [QOp.having "c" ">" (.str "hv"), QOp.whereB "a" "=" (.str "wv")]
     (by decide) (by decide)).2.1⟩
